import Mathlib

/-!
Shallow embedding of the slotted union-find from `suf.py`.

Conventions of the embedding:
- Python `dict[Id, Class]` keyed by densely allocated ids becomes a `List Class`
  indexed by position (`alloc` uses `len(self.classes)` as the fresh id).
- Python sets of slots / permutations become `Finset`s; iteration over a Python
  set (whose order is unspecified) is modelled by iterating `Finset.toList`
  (all the results computed from such iterations are order-independent sets).
- Fallible operations (`KeyError`, `IndexError`, `AttributeError`, failed
  `assert`) return `Option`: `none` means the Python code raises.
- The unbounded `while True:` loops (`find`, the redundancy loop of `union`,
  `Group.complete`) are modelled with explicit fuel; the fuel is chosen large
  enough that `none` is only returned on runs where the Python loop would not
  terminate or would raise.  All theorems below are either conditioned on
  success or prove success.
- Slots are natural numbers (per the data model: non-negative integer labels).
-/

set_option maxRecDepth 8000

namespace Slotted

abbrev Slot := Nat

abbrev Id := Nat

/-- Use the structural equality test on slot tuples everywhere (the
order-based one synthesized from the lexicographic order does not reduce
well inside the kernel). -/
instance (priority := 2000) : DecidableEq (List Slot) :=
  fun a b => instDecidableEqList a b

/-- Auxiliary equality test on options that keeps the decision procedure
free of `Eq.rec` casts (the derived one blocks kernel reduction when the
element equality proof is not definitional). -/
def optDecEqAux {α : Type} [DecidableEq α] : (x y : Option α) → Decidable (x = y)
  | none, none => isTrue rfl
  | none, some _ => isFalse (by simp)
  | some _, none => isFalse (by simp)
  | some a, some b => decidable_of_iff (a = b) (by simp)

instance (priority := 2000) {α : Type} [DecidableEq α] : DecidableEq (Option α) :=
  optDecEqAux

/-- `AppliedId(id, args)` from `suf.py`: a class identifier with a tuple
of slot arguments. -/
structure AppliedId where
  id : Id
  args : List Slot
deriving DecidableEq, Repr

/-- Option-valued map over a list: fails iff any element fails
(the embedding of a Python loop whose body can raise). -/
def mapO {α β : Type} (f : α → Option β) : List α → Option (List β)
  | [] => some []
  | a :: l =>
    match f a, mapO f l with
    | some b, some l' => some (b :: l')
    | _, _ => none

/-- Option-valued left fold (the embedding of a Python accumulation loop
whose body can raise). -/
def foldO {α β : Type} (f : β → α → Option β) : β → List α → Option β
  | b, [] => some b
  | b, a :: l =>
    match f b a with
    | none => none
    | some b' => foldO f b' l

/-- `compose(x, y) = tuple(x[y[i]] for i in range(len(x)))` from `suf.py`;
fails (`IndexError`) when an index is out of range. -/
def compose (x y : List Slot) : Option (List Slot) :=
  mapO (fun i => (y[i]?).bind fun yi => x[yi]?) (List.range x.length)

/-- A permutation group as in `suf.py`: a set of "permutations"
(argument tuples) meant to be closed under composition. -/
structure Group where
  perms : Finset (List Slot)

/-- Structure equality instances are written with `decidable_of_iff` so that
they reduce inside the kernel even when two finsets are equal only up to
permutation of their underlying lists. -/
instance : DecidableEq Group := fun g1 g2 =>
  decidable_of_iff (g1.perms = g2.perms) (by cases g1; cases g2; simp)

/-- `Group.__init__`: the group containing only the identity permutation. -/
def Group.init (arity : Nat) : Group := ⟨{List.range arity}⟩

/-- Deterministic, kernel-computable listing of a finite set in sorted
order (Python's set iteration order is unspecified; every result computed
from such an iteration below is order-independent). -/
def finsetSortedList {α : Type} [LinearOrder α] (s : Finset α) : List α :=
  Quotient.liftOn s.val (fun l => List.insertionSort (fun a b => a ≤ b) l)
    (fun _ _ h => List.eq_of_perm_of_sorted
      ((List.perm_insertionSort _ _).trans (h.trans (List.perm_insertionSort _ _).symm))
      (List.sorted_insertionSort _ _) (List.sorted_insertionSort _ _))

theorem mem_finsetSortedList {α : Type} [LinearOrder α] {s : Finset α} {a : α} :
    a ∈ finsetSortedList s ↔ a ∈ s := by
  rcases s with ⟨m, hnd⟩
  induction m using Quotient.inductionOn with
  | h l =>
    show a ∈ List.insertionSort (fun a b => a ≤ b) l ↔ _
    rw [(List.perm_insertionSort (fun a b => a ≤ b) l).mem_iff]
    rfl

/-- Deterministic iteration order for a stored set of permutations. -/
def Group.permList (g : Group) : List (List Slot) :=
  finsetSortedList g.perms

/-- One iteration of the body of `Group.complete`: adjoin all pairwise
compositions.  Fails when some composition raises `IndexError`. -/
def Group.step (g : Group) : Option Group :=
  match mapO (fun x => mapO (fun y => compose x y) g.permList) g.permList with
  | none => none
  | some comps => some ⟨g.perms ∪ comps.flatten.toFinset⟩

/-- The `while True:` loop of `Group.complete`, with fuel: iterate `step`
until the size is stable. -/
def Group.completeFuel : Nat → Group → Option Group
  | 0, _ => none
  | fuel + 1, g =>
    match g.step with
    | none => none
    | some g' =>
      if g'.perms.card = g.perms.card then some g' else Group.completeFuel fuel g'

/-- Fuel bound for `Group.complete`: the closure only ever contains lists
whose length and entries are bounded by those already present, so this
exceeds the number of productive iterations of any terminating run. -/
def Group.completeBound (g : Group) : Nat :=
  ((g.perms.sup fun p => p.foldr max 0) + 2) ^ ((g.perms.sup List.length) + 1) + 1

/-- `Group.add`: insert a permutation, then close under composition. -/
def Group.add (g : Group) (x : List Slot) : Option Group :=
  Group.completeFuel (Group.completeBound ⟨insert x g.perms⟩) ⟨insert x g.perms⟩

/-- `Group.orbit(s) = {s} ∪ {p[s] for p in perms}`; fails when `p[s]`
raises `IndexError` for some stored permutation. -/
def Group.orbit (g : Group) (s : Slot) : Option (Finset Slot) :=
  match mapO (fun p => p[s]?) g.permList with
  | none => none
  | some l => some (insert s l.toFinset)

/-- `Group.contains`. -/
def Group.contains (g : Group) (x : List Slot) : Bool :=
  decide (x ∈ g.perms)

/-- A per-id class record (`Class` in `suf.py`): arity, optional permutation
group (`None` once a leader is installed) and optional leader edge. -/
structure Class where
  arity : Nat
  group : Option Group
  leader : Option AppliedId

instance : DecidableEq Class := fun c1 c2 =>
  decidable_of_iff (c1.arity = c2.arity ∧ c1.group = c2.group ∧ c1.leader = c2.leader)
    (by cases c1; cases c2; simp)

/-- The state of the slotted union-find: the dense id-indexed class table. -/
structure SlottedUF where
  classes : List Class

instance : DecidableEq SlottedUF := fun s1 s2 =>
  decidable_of_iff (s1.classes = s2.classes) (by cases s1; cases s2; simp)

def SlottedUF.empty : SlottedUF := ⟨[]⟩

/-- Replace the class record at id `i` (a single Python attribute mutation
is modelled as replacing the record with an updated copy). -/
def SlottedUF.setClass (s : SlottedUF) (i : Id) (c : Class) : SlottedUF :=
  ⟨s.classes.set i c⟩

/-- The inner relabelling loop of `reorder`: thread the insertion-ordered
key list of the dict `d` through one argument tuple, producing the updated
key list and the relabelled tuple (`d[s]` is the first-encounter index of
`s`, i.e. its index in the key list). -/
def relabel (keys : List Slot) : List Slot → List Slot × List Slot
  | [] => (keys, [])
  | s :: rest =>
    let keys1 := if s ∈ keys then keys else keys ++ [s]
    let pr := relabel keys1 rest
    (pr.1, keys1.indexOf s :: pr.2)

/-- `reorder` over a list of applied ids, threading the dict `d`
(represented by its insertion-ordered key list). -/
def reorderList (keys : List Slot) : List AppliedId → List Slot × List AppliedId
  | [] => (keys, [])
  | a :: rest =>
    let pr := relabel keys a.args
    let pr2 := reorderList pr.1 rest
    (pr2.1, ⟨a.id, pr.2⟩ :: pr2.2)

/-- `reorder` from `suf.py`.  The returned `List Slot` is the insertion-ordered
key list of the dict `d`; the value `d[s]` is `keys.indexOf s`. -/
def reorder (apps : List AppliedId) : List Slot × List AppliedId :=
  reorderList [] apps

/-- `reorder` specialised to the two-element tuples used by `union`,
`is_equal` and `add_uf_edge`. -/
def reorderPair (x y : AppliedId) : AppliedId × AppliedId :=
  let p1 := relabel [] x.args
  let p2 := relabel p1.1 y.args
  (⟨x.id, p1.2⟩, ⟨y.id, p2.2⟩)

/-- `alloc`: append a fresh class with the given arity, trivial group and
no leader; the fresh id is the old table length. -/
def alloc (s : SlottedUF) (arity : Nat) : Id × SlottedUF :=
  (s.classes.length, ⟨s.classes ++ [⟨arity, some (Group.init arity), none⟩]⟩)

/-- The `while True:` loop of `find`, with fuel, threading the state
(which `find` reads but never writes). -/
def findLoop : Nat → SlottedUF → AppliedId → Option (AppliedId × SlottedUF)
  | 0, _, _ => none
  | fuel + 1, s, x =>
    match s.classes.get? x.id with
    | none => none
    | some c =>
      match c.leader with
      | none => some (x, s)
      | some l =>
        match mapO (fun a => x.args[a]?) l.args with
        | none => none
        | some args => findLoop fuel s ⟨l.id, args⟩

/-- `find`: chase leader edges, rewriting the argument tuple at each step.
Fuel `numClasses + 1` suffices for every run that terminates in Python
(an acyclic leader graph gives chains visiting distinct classes). -/
def find (s : SlottedUF) (x : AppliedId) : Option (AppliedId × SlottedUF) :=
  findLoop (s.classes.length + 1) s x

/-- `is_equal` from `suf.py`. -/
def is_equal (s : SlottedUF) (x y : AppliedId) : Option (Bool × SlottedUF) :=
  match find s x with
  | none => none
  | some (x', s) =>
    match find s y with
    | none => none
    | some (y', s) =>
      if x'.id ≠ y'.id then some (false, s)
      else
        let pr := reorderPair x' y'
        match s.classes.get? (pr.1).id with
        | none => none
        | some c =>
          match c.group with
          | none => none
          | some g => some (g.contains (pr.2).args, s)

/-- The symmetry-transport loop of `add_uf_edge`: for each permutation `p`
of the source's group, push the equation `x[identity] = x[p]` through the
freshly installed edge and record it in the target's group. -/
def transport (x : Id) (ident : List Slot) (yid : Id) (yAr : Nat) :
    List (List Slot) → SlottedUF → Option SlottedUF
  | [], s => some s
  | p :: rest, s =>
    match find s ⟨x, ident⟩ with
    | none => none
    | some (lhs, s) =>
      match find s ⟨x, p⟩ with
      | none => none
      | some (rhs, s) =>
        let pr := reorderPair lhs rhs
        if (pr.2).args.all (fun a => decide (a < yAr)) then
          match s.classes.get? yid with
          | none => none
          | some cy =>
            match cy.group with
            | none => none
            | some gy =>
              match gy.add (pr.2).args with
              | none => none
              | some gy' =>
                transport x ident yid yAr rest (s.setClass yid {cy with group := some gy'})
        else none

/-- `add_uf_edge`: install `leader(x) = y`, transport the source's
symmetries into the target's group, then drop the source's group. -/
def add_uf_edge (s : SlottedUF) (x : Id) (y : AppliedId) : Option SlottedUF :=
  match s.classes.get? x with
  | none => none
  | some cx =>
    let s1 := s.setClass x {cx with leader := some y}
    match s1.classes.get? y.id with
    | none => none
    | some cy =>
      match cx.group with
      | none => none
      | some g =>
        match transport x (List.range cx.arity) y.id cy.arity g.permList s1 with
        | none => none
        | some s2 =>
          match s2.classes.get? x with
          | none => none
          | some cx2 => some (s2.setClass x {cx2 with group := none})

/-- The redundant-position computation of `mark_slots_redundant`:
positions of the given slots in `args`, each expanded by its orbit. -/
def redundantsOf (g : Group) (args : List Slot) (slots : Finset Slot) :
    Option (Finset Slot) :=
  foldO (fun red sl =>
    if sl ∈ args then
      match g.orbit (args.indexOf sl) with
      | none => none
      | some ob => some (red ∪ ob)
    else some red) ∅ (finsetSortedList slots)

/-- `mark_slots_redundant` from `suf.py`. -/
def mark_slots_redundant (s : SlottedUF) (x : AppliedId) (slots : Finset Slot) :
    Option SlottedUF :=
  match find s x with
  | none => none
  | some (x, s) =>
    match s.classes.get? x.id with
    | none => none
    | some c =>
      match c.group with
      | none => none
      | some g =>
        match redundantsOf g x.args slots with
        | none => none
        | some red =>
          if red = ∅ then some s
          else
            let oldA := c.arity
            let pr := alloc s (oldA - red.card)
            add_uf_edge pr.2 x.id
              ⟨pr.1, (List.range oldA).filter (fun a => decide (a ∉ red))⟩

/-- The redundancy-equalisation `while True:` loop of `union`, with fuel:
re-`find` both sides; if the slot sets differ, mark the asymmetric slots
redundant on each side and repeat. -/
def unionLoop : Nat → SlottedUF → AppliedId → AppliedId →
    Option (SlottedUF × AppliedId × AppliedId)
  | 0, _, _, _ => none
  | fuel + 1, s, x, y =>
    match find s x with
    | none => none
    | some (x', s) =>
      match find s y with
      | none => none
      | some (y', s) =>
        if x'.args.toFinset = y'.args.toFinset then some (s, x', y')
        else
          match mark_slots_redundant s x' (x'.args.toFinset \ y'.args.toFinset) with
          | none => none
          | some s1 =>
            match mark_slots_redundant s1 y' (y'.args.toFinset \ x'.args.toFinset) with
            | none => none
            | some s2 => unionLoop fuel s2 x' y'

/-- Fuel bound for the loop of `union`: every productive iteration strictly
decreases the total arity of canonical classes, which this exceeds. -/
def unionFuel (s : SlottedUF) : Nat := (s.classes.map Class.arity).sum + 1

/-- `union` from `suf.py`. -/
def union (s : SlottedUF) (x y : AppliedId) : Option SlottedUF :=
  match unionLoop (unionFuel s) s x y with
  | none => none
  | some (s, x, y) =>
    match is_equal s x y with
    | none => none
    | some (b, s) =>
      if b then some s
      else
        let pr := reorderPair x y
        if (pr.1).id = (pr.2).id then
          match s.classes.get? (pr.1).id with
          | none => none
          | some c =>
            match c.group with
            | none => none
            | some g =>
              match g.add (pr.2).args with
              | none => none
              | some g' => some (s.setClass (pr.1).id {c with group := some g'})
        else add_uf_edge s (pr.1).id (pr.2)

/-- States reachable from the empty structure by successful public
operations (`alloc`, `find`, `union`, `is_equal`). -/
inductive Reachable : SlottedUF → Prop
  | base : Reachable SlottedUF.empty
  | step_alloc (s : SlottedUF) (n : Nat) : Reachable s → Reachable (alloc s n).2
  | step_union (s s' : SlottedUF) (x y : AppliedId) :
      Reachable s → union s x y = some s' → Reachable s'
  | step_find (s s' : SlottedUF) (x r : AppliedId) :
      Reachable s → find s x = some (r, s') → Reachable s'
  | step_is_equal (s s' : SlottedUF) (x y : AppliedId) (b : Bool) :
      Reachable s → is_equal s x y = some (b, s') → Reachable s'

/-! ### Concrete states used in the scenario theorems below -/

/-- One freshly allocated arity-2 class (id 0). -/
def ufTwo : SlottedUF := (alloc SlottedUF.empty 2).2

/-- Two freshly allocated arity-2 classes (ids 0 and 1). -/
def ufTwo2 : SlottedUF := (alloc ufTwo 2).2

/-- One freshly allocated arity-3 class (id 0). -/
def ufThree : SlottedUF := (alloc SlottedUF.empty 3).2

/-- An arity-3 class (id 0) and an arity-2 class (id 1). -/
def ufA32 : SlottedUF := (alloc ufThree 2).2

/-- The state produced by `union(a(3)[5,6,7], b(2)[7,6])` on `ufA32`:
the reorder-based edge construction creates a fresh arity-2 class 2 with
`leader(a) = 2[1,2]` and `leader(2) = b[1,0]`. -/
def c3state : SlottedUF :=
  ⟨[⟨3, none, some ⟨2, [1, 2]⟩⟩, ⟨2, some ⟨{[0, 1]}⟩, none⟩,
    ⟨2, none, some ⟨1, [1, 0]⟩⟩]⟩

/-- The state produced by `union(a(2)[0,0], b(2)[0,0])` on `ufTwo2`:
the symmetry transport inserts the non-bijective tuple `[0,0]` into
`group(b)`. -/
def c6state : SlottedUF :=
  ⟨[⟨2, none, some ⟨1, [0, 0]⟩⟩, ⟨2, some ⟨{[0, 0], [0, 1]}⟩, none⟩]⟩

/-- The insertion-ordered key list of `reorder`'s dict `d`, as the spec
describes it: scan all argument tuples left to right and append each slot
at its first encounter. -/
def firstEncounterKeys (apps : List AppliedId) : List Slot :=
  (apps.flatMap AppliedId.args).foldl
    (fun ks s => if s ∈ ks then ks else ks ++ [s]) []

/-! ### Basic lemmas about the option-valued list combinators -/

theorem mapO_cons {α β : Type} (f : α → Option β) (a : α) (l : List α) :
    mapO f (a :: l) = (f a).bind fun b => (mapO f l).map fun l' => b :: l' := by
  cases hfa : f a <;> cases hml : mapO f l <;> simp [mapO, hfa, hml]

theorem mapO_length {α β : Type} {f : α → Option β} :
    ∀ {l : List α} {l' : List β}, mapO f l = some l' → l'.length = l.length := by
  intro l
  induction l with
  | nil => intro l' h; simp [mapO] at h; subst h; rfl
  | cons a t ih =>
    intro l' h
    rw [mapO_cons] at h
    rcases Option.bind_eq_some.mp h with ⟨b, _, h2⟩
    rcases Option.map_eq_some'.mp h2 with ⟨t', ht', rfl⟩
    simp [ih ht']

theorem mapO_get? {α β : Type} {f : α → Option β} :
    ∀ {l : List α} {l' : List β}, mapO f l = some l' →
      ∀ i : Nat, l'.get? i = (l.get? i).bind f := by
  intro l
  induction l with
  | nil => intro l' h i; simp [mapO] at h; subst h; simp
  | cons a t ih =>
    intro l' h i
    rw [mapO_cons] at h
    rcases Option.bind_eq_some.mp h with ⟨b, hb, h2⟩
    rcases Option.map_eq_some'.mp h2 with ⟨t', ht', rfl⟩
    cases i with
    | zero => simp [hb]
    | succ j => simpa using ih ht' j

theorem mapO_mem {α β : Type} {f : α → Option β} {l : List α} {l' : List β}
    (h : mapO f l = some l') {b : β} (hb : b ∈ l') : ∃ a ∈ l, f a = some b := by
  induction l generalizing l' with
  | nil => simp [mapO] at h; subst h; simp at hb
  | cons a t ih =>
    rw [mapO_cons] at h
    rcases Option.bind_eq_some.mp h with ⟨b0, hb0, h2⟩
    rcases Option.map_eq_some'.mp h2 with ⟨t', ht', rfl⟩
    rcases List.mem_cons.mp hb with rfl | hbt
    · exact ⟨a, List.mem_cons_self _ _, hb0⟩
    · rcases ih ht' hbt with ⟨a', ha', hfa'⟩
      exact ⟨a', List.mem_cons_of_mem _ ha', hfa'⟩

theorem mapO_forall {α β : Type} {f : α → Option β} {l : List α} {l' : List β}
    (h : mapO f l = some l') {a : α} (ha : a ∈ l) : ∃ b ∈ l', f a = some b := by
  induction l generalizing l' with
  | nil => simp at ha
  | cons x t ih =>
    rw [mapO_cons] at h
    rcases Option.bind_eq_some.mp h with ⟨b0, hb0, h2⟩
    rcases Option.map_eq_some'.mp h2 with ⟨t', ht', rfl⟩
    rcases List.mem_cons.mp ha with rfl | hat
    · exact ⟨b0, List.mem_cons_self _ _, hb0⟩
    · rcases ih ht' hat with ⟨b, hb, hfb⟩
      exact ⟨b, List.mem_cons_of_mem _ hb, hfb⟩

theorem mapO_isSome {α β : Type} {f : α → Option β} {l : List α}
    (h : ∀ a ∈ l, (f a).isSome) : (mapO f l).isSome := by
  induction l with
  | nil => simp [mapO]
  | cons a t ih =>
    rw [mapO_cons]
    rcases Option.isSome_iff_exists.mp (h a (List.mem_cons_self _ _)) with ⟨b, hb⟩
    rcases Option.isSome_iff_exists.mp (ih fun a ha => h a (List.mem_cons_of_mem _ ha)) with
      ⟨t', ht'⟩
    simp [hb, ht']

theorem mapO_eq_none_of_mem {α β : Type} {f : α → Option β} {l : List α} {a : α}
    (ha : a ∈ l) (hf : f a = none) : mapO f l = none := by
  induction l with
  | nil => simp at ha
  | cons x t ih =>
    rw [mapO_cons]
    rcases List.mem_cons.mp ha with rfl | hat
    · simp [hf]
    · cases hfx : f x
      · simp
      · simp [ih hat]

/-! ### Purity of `find` and `is_equal` (they thread but never change the state) -/

theorem findLoop_state : ∀ {n : Nat} {s s' : SlottedUF} {x r : AppliedId},
    findLoop n s x = some (r, s') → s' = s := by
  intro n
  induction n with
  | zero => intro s s' x r h; simp [findLoop] at h
  | succ m ih =>
    intro s s' x r h
    rw [findLoop] at h
    split at h
    · simp at h
    · split at h
      · simp only [Option.some.injEq, Prod.mk.injEq] at h
        exact h.2.symm
      · split at h
        · simp at h
        · exact ih h

theorem find_state {s s' : SlottedUF} {x r : AppliedId}
    (h : find s x = some (r, s')) : s' = s :=
  findLoop_state h

theorem is_equal_state {s s' : SlottedUF} {x y : AppliedId} {b : Bool}
    (h : is_equal s x y = some (b, s')) : s' = s := by
  rw [is_equal] at h
  split at h
  · simp at h
  · rename_i x1 s1 heq1
    have hs1 : s1 = s := find_state heq1
    split at h
    · simp at h
    · rename_i y1 s2 heq2
      have hs2 : s2 = s1 := find_state heq2
      have hs21 : s2 = s := hs2.trans hs1
      split at h
      · simp only [Option.some.injEq, Prod.mk.injEq] at h
        exact h.2.symm.trans hs21
      · dsimp only at h
        split at h
        · simp at h
        · split at h
          · simp at h
          · simp only [Option.some.injEq, Prod.mk.injEq] at h
            exact h.2.symm.trans hs21

/-! ### Well-formedness invariants of reachable states -/

/-- Every leader edge `leader(i) = AppliedId(i', σ)` points to an existing
class, has `len σ = arity(i')`, and all entries of `σ` below `arity(i)`
(this is what `find`'s tuple indexing needs). -/
def EdgesWF (s : SlottedUF) : Prop :=
  ∀ i c l, s.classes.get? i = some c → c.leader = some l →
    ∃ cl, s.classes.get? l.id = some cl ∧ l.args.length = cl.arity ∧
      ∀ a ∈ l.args, a < c.arity

/-- All members of a stored permutation set have the given length and
entries below it. -/
def PermsWF (n : Nat) (P : Finset (List Slot)) : Prop :=
  ∀ p ∈ P, p.length = n ∧ ∀ e ∈ p, e < n

/-- A stored permutation set is closed under (successful) composition. -/
def ClosedP (P : Finset (List Slot)) : Prop :=
  ∀ p ∈ P, ∀ q ∈ P, ∃ r, compose p q = some r ∧ r ∈ P

/-- Every stored group contains the identity, is well-formed for the class
arity, and is closed under composition. -/
def GroupsWF (s : SlottedUF) : Prop :=
  ∀ i c g, s.classes.get? i = some c → c.group = some g →
    List.range c.arity ∈ g.perms ∧ PermsWF c.arity g.perms ∧ ClosedP g.perms

/-- A class has a group exactly when it has no leader. -/
def XorWF (s : SlottedUF) : Prop :=
  ∀ i c, s.classes.get? i = some c → (c.leader = none ↔ c.group ≠ none)

/-- Class `i` reaches the leaderless root `r` in exactly `k` leader steps. -/
inductive RootedAt (s : SlottedUF) : Id → Id → Nat → Prop
  | root (i : Id) (c : Class) :
      s.classes.get? i = some c → c.leader = none → RootedAt s i i 0
  | step (i : Id) (c : Class) (l : AppliedId) (r : Id) (k : Nat) :
      s.classes.get? i = some c → c.leader = some l →
      RootedAt s l.id r k → RootedAt s i r (k + 1)

/-- Number of classes carrying a leader edge. -/
def leaderCount (s : SlottedUF) : Nat :=
  s.classes.countP fun c => c.leader.isSome

/-- Every class reaches a root within `leaderCount` steps (this is the
acyclicity invariant: the leader graph has no cycles and bounded chains). -/
def DepthWF (s : SlottedUF) : Prop :=
  ∀ i c, s.classes.get? i = some c → ∃ r k, RootedAt s i r k ∧ k ≤ leaderCount s

/-- The full invariant of reachable states. -/
def Inv (s : SlottedUF) : Prop := EdgesWF s ∧ GroupsWF s ∧ XorWF s ∧ DepthWF s

/-! ### `findLoop` evaluation lemmas -/

theorem findLoop_succ_root {s : SlottedUF} {x : AppliedId} {c : Class}
    (hc : s.classes.get? x.id = some c) (hl : c.leader = none) (n : Nat) :
    findLoop (n + 1) s x = some (x, s) := by
  rw [findLoop, hc]
  simp [hl]

theorem findLoop_succ_step {s : SlottedUF} {x : AppliedId} {c : Class} {l : AppliedId}
    {args : List Slot} (hc : s.classes.get? x.id = some c) (hl : c.leader = some l)
    (hm : mapO (fun a => x.args[a]?) l.args = some args) (n : Nat) :
    findLoop (n + 1) s x = findLoop n s ⟨l.id, args⟩ := by
  rw [findLoop, hc]
  simp [hl, hm]

theorem findLoop_root : ∀ {n : Nat} {s s' : SlottedUF} {x r : AppliedId},
    findLoop n s x = some (r, s') →
    ∃ c, s.classes.get? r.id = some c ∧ c.leader = none := by
  intro n
  induction n with
  | zero => intro s s' x r h; simp [findLoop] at h
  | succ m ih =>
    intro s s' x r h
    rw [findLoop] at h
    split at h
    · simp at h
    · rename_i c hc
      split at h
      · rename_i hl
        simp only [Option.some.injEq, Prod.mk.injEq] at h
        obtain ⟨rfl, -⟩ := h
        exact ⟨c, hc, hl⟩
      · split at h
        · simp at h
        · exact ih h

theorem findLoop_mono : ∀ {n : Nat} {s s' : SlottedUF} {x r : AppliedId},
    findLoop n s x = some (r, s') → findLoop (n + 1) s x = some (r, s') := by
  intro n
  induction n with
  | zero => intro s s' x r h; simp [findLoop] at h
  | succ m ih =>
    intro s s' x r h
    rw [findLoop] at h
    split at h
    · simp at h
    · rename_i c hc
      split at h
      · rename_i hl
        simp only [Option.some.injEq, Prod.mk.injEq] at h
        obtain ⟨rfl, rfl⟩ := h
        exact findLoop_succ_root hc hl _
      · split at h
        · simp at h
        · rename_i l hl mo args hm
          rw [findLoop_succ_step hc hl hm]
          exact ih h

theorem findLoop_le {n m : Nat} {s s' : SlottedUF} {x r : AppliedId}
    (hnm : n ≤ m) (h : findLoop n s x = some (r, s')) :
    findLoop m s x = some (r, s') := by
  induction hnm with
  | refl => exact h
  | step _ ih => exact findLoop_mono ih

theorem findLoop_args_length {s : SlottedUF} (hE : EdgesWF s) :
    ∀ {n : Nat} {s' : SlottedUF} {x r : AppliedId},
    findLoop n s x = some (r, s') →
    (∃ c, s.classes.get? x.id = some c ∧ x.args.length = c.arity) →
    ∃ cr, s.classes.get? r.id = some cr ∧ r.args.length = cr.arity := by
  intro n
  induction n with
  | zero => intro s' x r h; simp [findLoop] at h
  | succ m ih =>
    intro s' x r h hx
    rw [findLoop] at h
    split at h
    · simp at h
    · rename_i c hc
      split at h
      · rename_i hl
        simp only [Option.some.injEq, Prod.mk.injEq] at h
        obtain ⟨rfl, -⟩ := h
        exact hx
      · split at h
        · simp at h
        · rename_i l hl mo args hm
          obtain ⟨c0, hc0, hxlen⟩ := hx
          rw [hc0] at hc
          obtain rfl : c0 = c := by injection hc
          obtain ⟨cl, hcl, hlen, -⟩ := hE _ _ _ hc0 hl
          refine ih h ⟨cl, hcl, ?_⟩
          show args.length = cl.arity
          rw [mapO_length hm]
          exact hlen

theorem findLoop_exact {s : SlottedUF} (hE : EdgesWF s) :
    ∀ {k : Nat} {i r : Id}, RootedAt s i r k →
    ∀ {x : AppliedId}, x.id = i →
    (∃ c, s.classes.get? i = some c ∧ x.args.length = c.arity) →
    ∃ y, findLoop (k + 1) s x = some (y, s) := by
  intro k i r hR
  induction hR with
  | root j c hc hl =>
    intro x hx hwf
    have hcx : s.classes.get? x.id = some c := by rw [hx]; exact hc
    exact ⟨x, findLoop_succ_root hcx hl 0⟩
  | step j c l r0 k0 hc hl hR0 ih =>
    intro x hx hwf
    obtain ⟨c0, hc0, hxlen⟩ := hwf
    have hcc : c0 = c := by rw [hc0] at hc; injection hc
    cases hcc
    have hcx : s.classes.get? x.id = some c := by rw [hx]; exact hc0
    obtain ⟨cl, hcl, hllen, hlbound⟩ := hE _ _ _ hc0 hl
    have hms : (mapO (fun a => x.args[a]?) l.args).isSome := by
      refine mapO_isSome fun a ha => ?_
      have hlt : a < x.args.length := by rw [hxlen]; exact hlbound a ha
      simp [List.getElem?_eq_getElem hlt]
    obtain ⟨args, hargs⟩ := Option.isSome_iff_exists.mp hms
    rw [findLoop_succ_step hcx hl hargs (k0 + 1)]
    refine ih rfl ⟨cl, hcl, ?_⟩
    show args.length = cl.arity
    rw [mapO_length hargs]
    exact hllen

theorem leaderCount_le (s : SlottedUF) : leaderCount s ≤ s.classes.length :=
  List.countP_le_length _

theorem find_succeeds {s : SlottedUF} (hE : EdgesWF s) (hD : DepthWF s)
    {x : AppliedId} {c : Class} (hc : s.classes.get? x.id = some c)
    (hlen : x.args.length = c.arity) : ∃ y, find s x = some (y, s) := by
  obtain ⟨r, k, hR, hk⟩ := hD _ _ hc
  obtain ⟨y, hy⟩ := findLoop_exact hE hR rfl ⟨c, hc, hlen⟩
  have hfuel : k + 1 ≤ s.classes.length + 1 :=
    Nat.succ_le_succ (le_trans hk (leaderCount_le s))
  exact ⟨y, findLoop_le hfuel hy⟩

/-! ### Lemmas about `compose` and the group closure loop -/

theorem compose_length {x y r : List Slot} (h : compose x y = some r) :
    r.length = x.length := by
  have := mapO_length h
  simpa using this

theorem compose_entry_mem {x y r : List Slot} (h : compose x y = some r) :
    ∀ b ∈ r, b ∈ x := by
  intro b hb
  obtain ⟨i, _, hf⟩ := mapO_mem h hb
  rcases Option.bind_eq_some.mp hf with ⟨yi, _, hxy⟩
  exact List.getElem?_mem hxy

theorem compose_succeeds {x y : List Slot} (hlen : y.length = x.length)
    (hent : ∀ e ∈ y, e < x.length) : (compose x y).isSome := by
  refine mapO_isSome fun i hi => ?_
  rw [List.mem_range] at hi
  have hiy : i < y.length := by omega
  rw [List.getElem?_eq_getElem hiy]
  have hyi : y[i] < x.length := hent _ (List.getElem_mem hiy)
  simp [List.getElem?_eq_getElem hyi]

theorem compose_entry_lt {x y r : List Slot} (h : compose x y = some r)
    {i : Nat} (hi : i < x.length) {e : Nat} (he : y[i]? = some e) : e < x.length := by
  obtain ⟨b, _, hf⟩ := mapO_forall h (List.mem_range.mpr hi)
  rw [he] at hf
  simp only [Option.some_bind] at hf
  exact (List.getElem?_eq_some.mp hf).1

theorem mem_permList {g : Group} {p : List Slot} : p ∈ g.permList ↔ p ∈ g.perms :=
  mem_finsetSortedList

theorem step_eq {g g' : Group} (h : g.step = some g') :
    ∃ comps, mapO (fun x => mapO (fun y => compose x y) g.permList) g.permList = some comps ∧
      g' = ⟨g.perms ∪ comps.flatten.toFinset⟩ := by
  rw [Group.step] at h
  split at h
  · simp at h
  · rename_i comps hcomps
    refine ⟨comps, hcomps, ?_⟩
    injection h with h
    exact h.symm

theorem step_subset {g g' : Group} (h : g.step = some g') : g.perms ⊆ g'.perms := by
  obtain ⟨comps, -, rfl⟩ := step_eq h
  exact Finset.subset_union_left

theorem step_pairs {g g' : Group} (h : g.step = some g') :
    ∀ p ∈ g.perms, ∀ q ∈ g.perms, ∃ r, compose p q = some r ∧ r ∈ g'.perms := by
  obtain ⟨comps, hm, rfl⟩ := step_eq h
  intro p hp q hq
  obtain ⟨row, hrow, hrowm⟩ := mapO_forall hm (mem_permList.mpr hp)
  obtain ⟨r, hr, hcomp⟩ := mapO_forall hrowm (mem_permList.mpr hq)
  refine ⟨r, hcomp, ?_⟩
  apply Finset.mem_union_right
  rw [List.mem_toFinset, List.mem_flatten]
  exact ⟨row, hrow, hr⟩

theorem step_mem_src {g g' : Group} (h : g.step = some g') :
    ∀ r ∈ g'.perms, r ∈ g.perms ∨ ∃ p ∈ g.perms, ∃ q ∈ g.perms, compose p q = some r := by
  obtain ⟨comps, hm, rfl⟩ := step_eq h
  intro r hr
  rcases Finset.mem_union.mp hr with h1 | h2
  · exact Or.inl h1
  · right
    rw [List.mem_toFinset, List.mem_flatten] at h2
    obtain ⟨row, hrow, hrm⟩ := h2
    obtain ⟨p, hp, hpm⟩ := mapO_mem hm hrow
    obtain ⟨q, hq, hqm⟩ := mapO_mem hpm hrm
    exact ⟨p, mem_permList.mp hp, q, mem_permList.mp hq, hqm⟩

theorem step_wf {n : Nat} {g g' : Group} (h : g.step = some g')
    (hwf : PermsWF n g.perms) : PermsWF n g'.perms := by
  intro r hr
  rcases step_mem_src h r hr with h1 | ⟨p, hp, q, hq, hc⟩
  · exact hwf r h1
  · constructor
    · rw [compose_length hc]
      exact (hwf p hp).1
    · intro e he
      exact (hwf p hp).2 e (compose_entry_mem hc e he)

theorem completeFuel_subset : ∀ {f : Nat} {g g' : Group},
    Group.completeFuel f g = some g' → g.perms ⊆ g'.perms := by
  intro f
  induction f with
  | zero => intro g g' h; simp [Group.completeFuel] at h
  | succ m ih =>
    intro g g' h
    rw [Group.completeFuel] at h
    split at h
    · simp at h
    · rename_i g1 hstep
      split at h
      · injection h with h
        subst h
        exact step_subset hstep
      · exact (step_subset hstep).trans (ih h)

theorem completeFuel_closed : ∀ {f : Nat} {g g' : Group},
    Group.completeFuel f g = some g' →
    ∀ p ∈ g'.perms, ∀ q ∈ g'.perms, ∃ r, compose p q = some r ∧ r ∈ g'.perms := by
  intro f
  induction f with
  | zero => intro g g' h; simp [Group.completeFuel] at h
  | succ m ih =>
    intro g g' h
    rw [Group.completeFuel] at h
    split at h
    · simp at h
    · rename_i g1 hstep
      split at h
      · rename_i hcard
        injection h with h
        intro p hp q hq
        rw [← h] at hp hq
        have hpe : g.perms = g1.perms :=
          Finset.eq_of_subset_of_card_le (step_subset hstep) (le_of_eq hcard)
        obtain ⟨r, hr, hrm⟩ :=
          step_pairs hstep p (by rw [hpe]; exact hp) q (by rw [hpe]; exact hq)
        refine ⟨r, hr, ?_⟩
        rw [← h]
        exact hrm
      · exact ih h

theorem completeFuel_wf {n : Nat} : ∀ {f : Nat} {g g' : Group},
    Group.completeFuel f g = some g' → PermsWF n g.perms → PermsWF n g'.perms := by
  intro f
  induction f with
  | zero => intro g g' h; simp [Group.completeFuel] at h
  | succ m ih =>
    intro g g' h hwf
    rw [Group.completeFuel] at h
    split at h
    · simp at h
    · rename_i g1 hstep
      split at h
      · injection h with h
        subst h
        exact step_wf hstep hwf
      · exact ih h (step_wf hstep hwf)

theorem completeFuel_step_isSome {f : Nat} {g g' : Group}
    (h : Group.completeFuel f g = some g') : ∃ g1, g.step = some g1 := by
  cases f with
  | zero => simp [Group.completeFuel] at h
  | succ m =>
    rw [Group.completeFuel] at h
    split at h
    · simp at h
    · rename_i g1 hstep
      exact ⟨g1, hstep⟩

theorem completeFuel_none_of_step_none {g : Group} (hs : g.step = none) :
    ∀ f, Group.completeFuel f g = none := by
  intro f
  cases f with
  | zero => simp [Group.completeFuel]
  | succ m => simp [Group.completeFuel, hs]

theorem add_subset {g : Group} {x : List Slot} {g' : Group} (h : g.add x = some g') :
    insert x g.perms ⊆ g'.perms :=
  completeFuel_subset h

theorem add_closed {g : Group} {x : List Slot} {g' : Group} (h : g.add x = some g') :
    ∀ p ∈ g'.perms, ∀ q ∈ g'.perms, ∃ r, compose p q = some r ∧ r ∈ g'.perms :=
  completeFuel_closed h

theorem add_wf {n : Nat} {g : Group} {x : List Slot} {g' : Group}
    (h : g.add x = some g') (hwf : PermsWF n (insert x g.perms)) : PermsWF n g'.perms :=
  completeFuel_wf h hwf

theorem add_none_of_length {g : Group} {x : List Slot} {n : Nat}
    (hid : List.range n ∈ g.perms) (hx : x.length ≠ n) : g.add x = none := by
  rw [Group.add]
  apply completeFuel_none_of_step_none
  have hxm : x ∈ (Group.mk (insert x g.perms)).permList :=
    mem_permList.mpr (Finset.mem_insert_self _ _)
  have hidm : List.range n ∈ (Group.mk (insert x g.perms)).permList :=
    mem_permList.mpr (Finset.mem_insert_of_mem hid)
  rw [Group.step]
  rcases Nat.lt_or_ge x.length n with hlt | hge
  · have hcomp : compose (List.range n) x = none := by
      apply mapO_eq_none_of_mem (a := x.length)
      · simp [hlt]
      · rw [List.getElem?_eq_none_iff.mpr (le_refl x.length)]
        rfl
    have hinner : mapO (fun y => compose (List.range n) y)
        (Group.mk (insert x g.perms)).permList = none :=
      mapO_eq_none_of_mem hxm hcomp
    rw [mapO_eq_none_of_mem hidm hinner]
  · have hgt : n < x.length := lt_of_le_of_ne hge (fun hh => hx hh.symm)
    have hcomp : compose x (List.range n) = none := by
      apply mapO_eq_none_of_mem (a := n)
      · simp [hgt]
      · rw [List.getElem?_eq_none_iff.mpr (by simp)]
        rfl
    have hinner : mapO (fun y => compose x y)
        (Group.mk (insert x g.perms)).permList = none :=
      mapO_eq_none_of_mem hidm hcomp
    rw [mapO_eq_none_of_mem hxm hinner]

theorem add_forces_length {g : Group} {x : List Slot} {g' : Group} {n : Nat}
    (h : g.add x = some g') (hid : List.range n ∈ g.perms) : x.length = n := by
  by_contra hne
  rw [add_none_of_length hid hne] at h
  exact Option.noConfusion h

theorem add_forces_entries {g : Group} {x : List Slot} {g' : Group} {n : Nat}
    (h : g.add x = some g') (hid : List.range n ∈ g.perms) : ∀ e ∈ x, e < n := by
  obtain ⟨g1, hstep⟩ := completeFuel_step_isSome h
  obtain ⟨r, hcomp, -⟩ := step_pairs hstep (List.range n)
    (Finset.mem_insert_of_mem hid) x (Finset.mem_insert_self _ _)
  intro e he
  obtain ⟨i, hi, rfl⟩ := List.mem_iff_getElem.mp he
  have hie : x[i]? = some x[i] := List.getElem?_eq_getElem hi
  have hilt : i < (List.range n).length := by
    rw [List.length_range]
    rw [add_forces_length h hid] at hi
    exact hi
  have := compose_entry_lt hcomp hilt hie
  simpa using this

/-! ### State-table helper lemmas -/

theorem get?_some_lt {α : Type} {l : List α} {i : Nat} {a : α}
    (h : l.get? i = some a) : i < l.length := by
  by_contra hn
  rw [List.get?_eq_none.mpr (Nat.le_of_not_lt hn)] at h
  exact Option.noConfusion h

theorem setClass_length (s : SlottedUF) (i : Id) (c : Class) :
    (s.setClass i c).classes.length = s.classes.length := by
  simp [SlottedUF.setClass]

theorem setClass_get_self {s : SlottedUF} {i : Id} (c : Class)
    (h : i < s.classes.length) : (s.setClass i c).classes.get? i = some c :=
  List.get?_set_eq_of_lt c h

theorem setClass_get_ne {s : SlottedUF} {i : Id} {c : Class} {j : Id}
    (h : j ≠ i) : (s.setClass i c).classes.get? j = s.classes.get? j :=
  List.get?_set_ne c _ (Ne.symm h)

theorem alloc_get_old {s : SlottedUF} {n : Nat} {j : Id} {c : Class}
    (h : s.classes.get? j = some c) : (alloc s n).2.classes.get? j = some c := by
  rw [alloc]
  rw [List.get?_append (get?_some_lt h)]
  exact h

theorem alloc_get_new (s : SlottedUF) (n : Nat) :
    (alloc s n).2.classes.get? s.classes.length =
      some ⟨n, some (Group.init n), none⟩ := by
  rw [alloc]
  rw [List.get?_append_right (le_refl _)]
  simp

theorem alloc_get_cases {s : SlottedUF} {n : Nat} {j : Id} {c : Class}
    (h : (alloc s n).2.classes.get? j = some c) :
    s.classes.get? j = some c ∨ (j = s.classes.length ∧ c = ⟨n, some (Group.init n), none⟩) := by
  rcases Nat.lt_or_ge j s.classes.length with hj | hj
  · left
    rw [alloc, List.get?_append hj] at h
    exact h
  · right
    rw [alloc] at h
    rw [List.get?_append_right hj] at h
    cases hd : j - s.classes.length with
    | zero =>
      have hjl : j = s.classes.length := Nat.le_antisymm (Nat.le_of_sub_eq_zero hd) hj
      rw [hd] at h
      simp at h
      exact ⟨hjl, h.symm⟩
    | succ m =>
      rw [hd] at h
      simp at h

theorem countP_set_same {α : Type} (p : α → Bool) :
    ∀ (l : List α) (i : Nat) (a b : α), l.get? i = some b → p a = p b →
      (l.set i a).countP p = l.countP p := by
  intro l
  induction l with
  | nil => intro i a b h; simp at h
  | cons x t ih =>
    intro i a b h hp
    cases i with
    | zero =>
      simp only [List.get?] at h
      injection h with h
      subst h
      simp [List.countP_cons, hp]
    | succ j =>
      simp only [List.get?] at h
      simp [List.countP_cons, ih j a b h hp]

theorem countP_set_incr {α : Type} (p : α → Bool) :
    ∀ (l : List α) (i : Nat) (a b : α), l.get? i = some b → p b = false → p a = true →
      (l.set i a).countP p = l.countP p + 1 := by
  intro l
  induction l with
  | nil => intro i a b h; simp at h
  | cons x t ih =>
    intro i a b h hb ha
    cases i with
    | zero =>
      simp only [List.get?] at h
      injection h with h
      subst h
      simp [List.countP_cons, hb, ha]
    | succ j =>
      simp only [List.get?] at h
      simp [List.countP_cons, ih j a b h hb ha]
      omega

theorem leaderCount_setClass_same {s : SlottedUF} {i : Id} {c c' : Class}
    (h : s.classes.get? i = some c) (hsame : c'.leader.isSome = c.leader.isSome) :
    leaderCount (s.setClass i c') = leaderCount s :=
  countP_set_same _ _ _ _ _ h hsame

theorem leaderCount_setClass_incr {s : SlottedUF} {i : Id} {c c' : Class}
    (h : s.classes.get? i = some c) (hnone : c.leader = none)
    (hsome : c'.leader.isSome) :
    leaderCount (s.setClass i c') = leaderCount s + 1 :=
  countP_set_incr _ _ _ _ _ h (by simp [hnone]) hsome

theorem leaderCount_alloc (s : SlottedUF) (n : Nat) :
    leaderCount (alloc s n).2 = leaderCount s := by
  simp [alloc, leaderCount, List.countP_append]

/-! ### Transfer lemmas for rootedness -/

theorem rootedAt_transfer {s s' : SlottedUF}
    (H : ∀ j c, s.classes.get? j = some c →
      ∃ c', s'.classes.get? j = some c' ∧ c'.leader = c.leader) :
    ∀ {i r : Id} {k : Nat}, RootedAt s i r k → RootedAt s' i r k := by
  intro i r k h
  induction h with
  | root j c hc hl =>
    obtain ⟨c', hc', hl'⟩ := H _ _ hc
    exact RootedAt.root j c' hc' (by rw [hl', hl])
  | step j c l r0 k0 hc hl hR ih =>
    obtain ⟨c', hc', hl'⟩ := H _ _ hc
    exact RootedAt.step j c' l r0 k0 hc' (by rw [hl', hl]) ih

theorem rootedAt_setLeader {s : SlottedUF} {x : Id} {cx : Class} {y : AppliedId}
    (hcx : s.classes.get? x = some cx) (hlx : cx.leader = none)
    (hxy : y.id ≠ x) :
    ∀ {i r : Id} {k : Nat}, RootedAt s i r k →
      RootedAt (s.setClass x {cx with leader := some y}) i r k ∨
      (r = x ∧ ∀ {cy : Class}, s.classes.get? y.id = some cy → cy.leader = none →
        RootedAt (s.setClass x {cx with leader := some y}) i y.id (k + 1)) := by
  intro i r k h
  induction h with
  | root j c hc hl =>
    by_cases hjx : j = x
    · subst hjx
      right
      refine ⟨rfl, ?_⟩
      intro cy hcy hly
      refine RootedAt.step j {cx with leader := some y} y y.id 0
        (setClass_get_self _ (get?_some_lt hcx)) rfl ?_
      exact RootedAt.root y.id cy (by rw [setClass_get_ne hxy]; exact hcy) hly
    · left
      exact RootedAt.root j c (by rw [setClass_get_ne hjx]; exact hc) hl
  | step j c l r0 k0 hc hl hR ih =>
    have hjx : j ≠ x := by
      intro hh
      subst hh
      rw [hcx] at hc
      injection hc with hc
      rw [← hc] at hl
      rw [hlx] at hl
      exact Option.noConfusion hl
    rcases ih with ih1 | ⟨hr, ih2⟩
    · left
      exact RootedAt.step j c l r0 k0 (by rw [setClass_get_ne hjx]; exact hc) hl ih1
    · right
      refine ⟨hr, ?_⟩
      intro cy hcy hly
      exact RootedAt.step j c l y.id (k0 + 1)
        (by rw [setClass_get_ne hjx]; exact hc) hl (ih2 hcy hly)

/-! ### The symmetry-transport loop of `add_uf_edge` -/

theorem relabel_length (keys : List Slot) :
    ∀ l : List Slot, (relabel keys l).2.length = l.length := by
  intro l
  induction l generalizing keys with
  | nil => simp [relabel]
  | cons a t ih => simp [relabel, ih]

theorem findLoop_succ_step_none {s : SlottedUF} {x : AppliedId} {c : Class}
    {l : AppliedId} (hc : s.classes.get? x.id = some c) (hl : c.leader = some l)
    (hm : mapO (fun a => x.args[a]?) l.args = none) (n : Nat) :
    findLoop (n + 1) s x = none := by
  rw [findLoop, hc]
  simp [hl, hm]

theorem findLoop_root_any {n : Nat} (hn : n ≠ 0) {s : SlottedUF} {x : AppliedId}
    {c : Class} (hc : s.classes.get? x.id = some c) (hl : c.leader = none) :
    findLoop n s x = some (x, s) := by
  cases n with
  | zero => exact absurd rfl hn
  | succ m => exact findLoop_succ_root hc hl m

theorem transport_inv {s1 : SlottedUF} {x yid : Id} {yAr : Nat} {ident : List Slot} :
    ∀ {ps : List (List Slot)} {t t' : SlottedUF} {gc : Finset (List Slot)},
    t.classes.get? yid = some ⟨yAr, some ⟨gc⟩, none⟩ →
    (∀ j, j ≠ yid → t.classes.get? j = s1.classes.get? j) →
    List.range yAr ∈ gc → PermsWF yAr gc → ClosedP gc →
    transport x ident yid yAr ps t = some t' →
    ∃ gc', t'.classes.get? yid = some ⟨yAr, some ⟨gc'⟩, none⟩ ∧
      (∀ j, j ≠ yid → t'.classes.get? j = s1.classes.get? j) ∧
      List.range yAr ∈ gc' ∧ PermsWF yAr gc' ∧ ClosedP gc' ∧ gc ⊆ gc' ∧
      t'.classes.length = t.classes.length ∧ leaderCount t' = leaderCount t := by
  intro ps
  induction ps with
  | nil =>
    intro t t' gc hT hfr hid hwf hcl h
    rw [transport] at h
    injection h with h
    subst h
    exact ⟨gc, hT, hfr, hid, hwf, hcl, Finset.Subset.refl _, rfl, rfl⟩
  | cons p rest ih =>
    intro t t' gc hT hfr hid hwf hcl h
    rw [transport] at h
    split at h
    · simp at h
    · rename_i lhs t1 heq1
      have ht1 : t1 = t := find_state heq1
      rw [ht1] at h
      split at h
      · simp at h
      · rename_i rhs t2 heq2
        have ht2 : t2 = t := find_state heq2
        rw [ht2] at h
        dsimp only at h
        split at h
        · rename_i hall
          split at h
          · simp at h
          · rename_i cy0 hcy0
            split at h
            · simp at h
            · rename_i gy hgy
              split at h
              · simp at h
              · rename_i gy' hadd
                rw [hT] at hcy0
                injection hcy0 with hcy0
                have hgyv : gy = ⟨gc⟩ := by
                  rw [← hcy0] at hgy
                  simp only at hgy
                  injection hgy with hgy
                  exact hgy.symm
                subst hgyv
                have hargswf : ∀ a ∈ (reorderPair lhs rhs).2.args, a < yAr := by
                  intro a ha
                  have := List.all_eq_true.mp hall a ha
                  exact of_decide_eq_true this
                have hargslen : (reorderPair lhs rhs).2.args.length = yAr :=
                  add_forces_length hadd hid
                have hins : PermsWF yAr (insert (reorderPair lhs rhs).2.args gc) := by
                  intro q hq
                  rcases Finset.mem_insert.mp hq with rfl | hq2
                  · exact ⟨hargslen, hargswf⟩
                  · exact hwf q hq2
                have hylt : yid < t.classes.length := get?_some_lt hT
                obtain ⟨gc', h1, h2, h3, h4, h5, h6, h7, h8⟩ :=
                  @ih (t.setClass yid {cy0 with group := some gy'}) _
                    gy'.perms
                    (by rw [← hcy0]
                        rw [setClass_get_self _ hylt])
                    (fun j hj => by rw [setClass_get_ne hj]; exact hfr j hj)
                    (add_subset hadd (Finset.mem_insert_of_mem hid))
                    (add_wf hadd hins)
                    (add_closed hadd)
                    h
                refine ⟨gc', h1, h2, h3, h4, h5, ?_, ?_, ?_⟩
                · exact Finset.Subset.trans
                    (Finset.Subset.trans (Finset.subset_insert _ _) (add_subset hadd)) h6
                · rw [h7, setClass_length]
                · rw [h8, leaderCount_setClass_same hT (by rw [← hcy0])]
        · simp at h

theorem transport_head {s1 : SlottedUF} {x : Id} {cxe : Class} {y : AppliedId}
    (hcxe : s1.classes.get? x = some cxe) (hlead : cxe.leader = some y)
    {cy0 : Class} (hcy0 : s1.classes.get? y.id = some cy0)
    (hcy0l : cy0.leader = none) {gy : Group} (hcy0g : cy0.group = some gy)
    {yAr : Nat} (hid : List.range yAr ∈ gy.perms)
    {ident : List Slot} {p : List Slot} {ps : List (List Slot)} {t' : SlottedUF}
    (h : transport x ident y.id yAr (p :: ps) s1 = some t') :
    (∀ a ∈ y.args, ∃ b, ident[a]? = some b) ∧ y.args.length = yAr := by
  have hlen0 : s1.classes.length ≠ 0 := by
    have := get?_some_lt hcxe
    omega
  rw [transport] at h
  split at h
  · simp at h
  · rename_i lhs t1 heq1
    have ht1 : t1 = s1 := find_state heq1
    rw [ht1] at h
    split at h
    · simp at h
    · rename_i rhs t2 heq2
      have ht2 : t2 = s1 := find_state heq2
      rw [ht2] at h
      dsimp only at h
      split at h
      · rename_i hall
        split at h
        · simp at h
        · rename_i cy1 hcy1
          split at h
          · simp at h
          · rename_i gy1 hgy1
            split at h
            · simp at h
            · rename_i gy' hadd
              rw [hcy0] at hcy1
              injection hcy1 with hcy1
              rw [← hcy1] at hgy1
              rw [hcy0g] at hgy1
              injection hgy1 with hgy1
              rw [← hgy1] at hadd
              rw [find] at heq1
              rcases hm : mapO (fun a => ident[a]?) y.args with _ | args0
              · rw [findLoop_succ_step_none hcxe hlead hm] at heq1
                exact absurd heq1 (by simp)
              · have hfact1 : ∀ a ∈ y.args, ∃ b, ident[a]? = some b := by
                  intro a ha
                  obtain ⟨b, -, hb⟩ := mapO_forall hm ha
                  exact ⟨b, hb⟩
                rw [find] at heq2
                rcases hm2 : mapO (fun a => p[a]?) y.args with _ | args1
                · rw [findLoop_succ_step_none hcxe hlead hm2] at heq2
                  exact absurd heq2 (by simp)
                · rw [findLoop_succ_step hcxe hlead hm2] at heq2
                  rw [findLoop_root_any (x := ⟨y.id, args1⟩) hlen0 hcy0 hcy0l] at heq2
                  simp only [Option.some.injEq, Prod.mk.injEq] at heq2
                  obtain ⟨hrhs, -⟩ := heq2
                  have hprlen : (reorderPair lhs rhs).2.args.length = rhs.args.length :=
                    relabel_length _ _
                  have hrlen : rhs.args.length = y.args.length := by
                    rw [← hrhs]
                    exact mapO_length hm2
                  have hforce : (reorderPair lhs rhs).2.args.length = yAr :=
                    add_forces_length hadd hid
                  exact ⟨hfact1, by omega⟩
      · simp at h

theorem lt_get?_some {α : Type} {l : List α} {i : Nat} (h : i < l.length) :
    ∃ a, l.get? i = some a := by
  cases hh : l.get? i with
  | none =>
    rw [List.get?_eq_none] at hh
    omega
  | some a => exact ⟨a, rfl⟩

/-- The central preservation lemma: installing a leader edge from a root `x`
to an applied id over a distinct root `y.id`, with symmetry transport,
preserves the invariant (whenever `add_uf_edge` succeeds).  The edge facts
`len(y.args) = arity(y.id)` and `entries < arity(x)` are forced by the
transport loop itself, so no extra hypotheses about `y.args` are needed. -/
theorem add_uf_edge_inv {s : SlottedUF} (hI : Inv s) {x : Id} {cx : Class}
    (hcx : s.classes.get? x = some cx) (hlx : cx.leader = none)
    {y : AppliedId} {cy : Class} (hcy : s.classes.get? y.id = some cy)
    (hly : cy.leader = none) (hxy : y.id ≠ x)
    {s' : SlottedUF} (h : add_uf_edge s x y = some s') :
    Inv s' ∧ s'.classes.length = s.classes.length ∧
      leaderCount s' = leaderCount s + 1 ∧
      (∀ j c, s.classes.get? j = some c →
        ∃ c', s'.classes.get? j = some c' ∧ c'.arity = c.arity) := by
  obtain ⟨hE, hG, hX, hD⟩ := hI
  have hxlt : x < s.classes.length := get?_some_lt hcx
  rw [add_uf_edge] at h
  split at h
  · simp at h
  · rename_i cx0 hcx0
    have hcxeq : cx0 = cx := by
      rw [hcx] at hcx0
      exact (Option.some.inj hcx0).symm
    dsimp only at h
    rw [hcxeq] at h
    split at h
    · simp at h
    · rename_i cy1 hcy1
      split at h
      · simp at h
      · rename_i g hg
        split at h
        · simp at h
        · rename_i s2 htr
          split at h
          · simp at h
          · rename_i cx2 hcx2
            simp only [Option.some.injEq] at h
            have hcy1eq : cy1 = cy := by
              rw [setClass_get_ne hxy, hcy] at hcy1
              exact (Option.some.inj hcy1).symm
            rw [hcy1eq] at htr
            obtain ⟨hgid, hgwf, hgcl⟩ := hG _ _ _ hcx hg
            obtain ⟨gy, hgy⟩ :=
              Option.ne_none_iff_exists'.mp ((hX _ _ hcy).mp hly)
            obtain ⟨hyid, hywf, hycl⟩ := hG _ _ _ hcy hgy
            obtain ⟨p0, rest0, hpl⟩ :=
              List.exists_cons_of_ne_nil (List.ne_nil_of_mem (mem_permList.mpr hgid))
            rw [hpl] at htr
            have hcxe : (s.setClass x {cx with leader := some y}).classes.get? x =
                some {cx with leader := some y} :=
              setClass_get_self _ hxlt
            have hs1y : (s.setClass x {cx with leader := some y}).classes.get? y.id =
                some cy := by
              rw [setClass_get_ne hxy]
              exact hcy
            obtain ⟨hargs0, hylen⟩ := transport_head hcxe rfl hs1y hly hgy hyid htr
            have hbound : ∀ a ∈ y.args, a < cx.arity := by
              intro a ha
              obtain ⟨b, hb⟩ := hargs0 a ha
              have := (List.getElem?_eq_some.mp hb).1
              simpa using this
            have hcyeta : cy = ⟨cy.arity, some ⟨gy.perms⟩, none⟩ := by
              obtain ⟨a0, g0, l0⟩ := cy
              dsimp only at hgy hly ⊢
              subst hgy
              subst hly
              rfl
            have hT : (s.setClass x {cx with leader := some y}).classes.get? y.id =
                some ⟨cy.arity, some ⟨gy.perms⟩, none⟩ := by
              rw [hs1y, ← hcyeta]
            obtain ⟨gc', hs2y, hs2fr, hgcid, hgcwf, hgccl, hgcsub, hs2len, hs2lc⟩ :=
              transport_inv hT (fun j hj => rfl) hyid hywf hycl htr
            have hyx : x ≠ y.id := Ne.symm hxy
            have hcx2eq : cx2 = {cx with leader := some y} := by
              rw [hs2fr x hyx, hcxe] at hcx2
              exact (Option.some.inj hcx2).symm
            rw [hcx2eq] at h
            subst h
            have hs1len : (s.setClass x {cx with leader := some y}).classes.length =
                s.classes.length := setClass_length _ _ _
            have hs2len' : s2.classes.length = s.classes.length := by
              rw [hs2len, hs1len]
            have hxlt2 : x < s2.classes.length := by
              rw [hs2len']
              exact hxlt
            have hs'x : (s2.setClass x
                {({cx with leader := some y} : Class) with group := none}).classes.get? x =
                some ⟨cx.arity, none, some y⟩ :=
              setClass_get_self _ hxlt2
            have hs'y : (s2.setClass x
                {({cx with leader := some y} : Class) with group := none}).classes.get? y.id =
                some ⟨cy.arity, some ⟨gc'⟩, none⟩ := by
              rw [setClass_get_ne hxy]
              exact hs2y
            have hs'other : ∀ j, j ≠ x → j ≠ y.id →
                (s2.setClass x
                  {({cx with leader := some y} : Class) with group := none}).classes.get? j =
                  s.classes.get? j := by
              intro j hjx hjy
              rw [setClass_get_ne hjx, hs2fr j hjy, setClass_get_ne hjx]
            have hs'len : (s2.setClass x
                {({cx with leader := some y} : Class) with group := none}).classes.length =
                s.classes.length := by
              rw [setClass_length, hs2len']
            have harities : ∀ j c, s.classes.get? j = some c →
                ∃ c', (s2.setClass x
                  {({cx with leader := some y} : Class) with group := none}).classes.get? j =
                    some c' ∧ c'.arity = c.arity := by
              intro j c hjc
              by_cases hjx : j = x
              · subst hjx
                rw [hcx] at hjc
                obtain rfl := Option.some.inj hjc
                exact ⟨_, hs'x, rfl⟩
              · by_cases hjy : j = y.id
                · subst hjy
                  rw [hcy] at hjc
                  obtain rfl := Option.some.inj hjc
                  exact ⟨_, hs'y, rfl⟩
                · exact ⟨c, by rw [hs'other j hjx hjy]; exact hjc, rfl⟩
            have hlc : leaderCount (s2.setClass x
                {({cx with leader := some y} : Class) with group := none}) =
                leaderCount s + 1 := by
              have h1 : leaderCount (s.setClass x {cx with leader := some y}) =
                  leaderCount s + 1 :=
                leaderCount_setClass_incr hcx hlx rfl
              have h2 : leaderCount (s2.setClass x
                  {({cx with leader := some y} : Class) with group := none}) =
                  leaderCount s2 :=
                leaderCount_setClass_same (c := {cx with leader := some y})
                  (by rw [hs2fr x hyx, hcxe]) rfl
              rw [h2, hs2lc, h1]
            refine ⟨⟨?_, ?_, ?_, ?_⟩, hs'len, hlc, harities⟩
            · -- EdgesWF
              intro i c l hic hil
              by_cases hix : i = x
              · subst hix
                rw [hs'x] at hic
                obtain rfl := Option.some.inj hic
                simp only at hil
                obtain rfl := Option.some.inj hil
                exact ⟨_, hs'y, by simpa using hylen, by simpa using hbound⟩
              · by_cases hiy : i = y.id
                · subst hiy
                  rw [hs'y] at hic
                  obtain rfl := Option.some.inj hic
                  simp at hil
                · rw [hs'other i hix hiy] at hic
                  obtain ⟨cl, hcl, hlen2, hb⟩ := hE _ _ _ hic hil
                  obtain ⟨cl', hcl', harr⟩ := harities _ _ hcl
                  exact ⟨cl', hcl', by rw [hlen2, harr], hb⟩
            · -- GroupsWF
              intro i c gg hic hig
              by_cases hix : i = x
              · subst hix
                rw [hs'x] at hic
                obtain rfl := Option.some.inj hic
                simp at hig
              · by_cases hiy : i = y.id
                · subst hiy
                  rw [hs'y] at hic
                  obtain rfl := Option.some.inj hic
                  simp only at hig
                  obtain rfl := Option.some.inj hig
                  exact ⟨hgcid, hgcwf, hgccl⟩
                · rw [hs'other i hix hiy] at hic
                  exact hG _ _ _ hic hig
            · -- XorWF
              intro i c hic
              by_cases hix : i = x
              · subst hix
                rw [hs'x] at hic
                obtain rfl := Option.some.inj hic
                simp
              · by_cases hiy : i = y.id
                · subst hiy
                  rw [hs'y] at hic
                  obtain rfl := Option.some.inj hic
                  simp
                · rw [hs'other i hix hiy] at hic
                  exact hX _ _ hic
            · -- DepthWF
              intro i c hic
              have hilt : i < s.classes.length := by
                have := get?_some_lt hic
                rw [hs'len] at this
                exact this
              obtain ⟨c0, hc0⟩ := lt_get?_some hilt
              obtain ⟨r, k, hR, hk⟩ := hD _ _ hc0
              have htrans : ∀ j cj,
                  (s.setClass x {cx with leader := some y}).classes.get? j = some cj →
                  ∃ cj', (s2.setClass x
                    {({cx with leader := some y} : Class) with group := none}).classes.get? j =
                      some cj' ∧ cj'.leader = cj.leader := by
                intro j cj hj
                by_cases hjx : j = x
                · subst hjx
                  rw [hcxe] at hj
                  obtain rfl := Option.some.inj hj
                  exact ⟨_, hs'x, rfl⟩
                · by_cases hjy : j = y.id
                  · subst hjy
                    rw [hs1y] at hj
                    obtain rfl := Option.some.inj hj
                    exact ⟨_, hs'y, by rw [hly]⟩
                  · refine ⟨cj, ?_, rfl⟩
                    rw [hs'other j hjx hjy]
                    rw [setClass_get_ne hjx] at hj
                    exact hj
              rcases rootedAt_setLeader hcx hlx hxy hR with hR1 | ⟨hrx, hR2⟩
              · exact ⟨r, k, rootedAt_transfer htrans hR1, by rw [hlc]; omega⟩
              · exact ⟨y.id, k + 1, rootedAt_transfer htrans (hR2 hcy hly),
                  by rw [hlc]; omega⟩

/-! ### Invariant preservation for the remaining operations -/

theorem mapO_congr {α β : Type} {f g : α → Option β} :
    ∀ {l : List α}, (∀ a ∈ l, f a = g a) → mapO f l = mapO g l := by
  intro l
  induction l with
  | nil => intro _; rfl
  | cons a t ih =>
    intro h
    rw [mapO_cons, mapO_cons, h a (List.mem_cons_self _ _),
      ih fun b hb => h b (List.mem_cons_of_mem _ hb)]

theorem mapO_map {α β γ : Type} (f : β → Option γ) (g : α → β) :
    ∀ l : List α, mapO f (l.map g) = mapO (fun a => f (g a)) l := by
  intro l
  induction l with
  | nil => rfl
  | cons a t ih => rw [List.map_cons, mapO_cons, mapO_cons, ih]

theorem mapO_getElem_range : ∀ x : List Slot,
    mapO (fun i => x[i]?) (List.range x.length) = some x := by
  intro x
  induction x with
  | nil => rfl
  | cons a t ih =>
    rw [List.length_cons, List.range_succ_eq_map, mapO_cons, mapO_map]
    have hh : mapO (fun i => (a :: t)[i + 1]?) (List.range t.length) = some t := by
      rw [mapO_congr (g := fun i => t[i]?) (fun i _ => by simp)]
      exact ih
    simp only [hh]
    simp

theorem mapO_getElem_range2 {x : List Slot} {n : Nat} (h : x.length = n) :
    mapO (fun i => x[i]?) (List.range n) = some x := by
  rw [← h]
  exact mapO_getElem_range x

theorem compose_range_self (n : Nat) :
    compose (List.range n) (List.range n) = some (List.range n) := by
  rw [compose]
  rw [mapO_congr (g := fun i => (List.range n)[i]?)]
  · exact mapO_getElem_range2 rfl
  · intro i hi
    rw [List.length_range, List.mem_range] at hi
    simp [List.getElem?_range hi]

theorem inv_empty : Inv SlottedUF.empty := by
  refine ⟨?_, ?_, ?_, ?_⟩ <;> intro i c <;> intros <;> simp_all [SlottedUF.empty]

theorem alloc_inv {s : SlottedUF} (hI : Inv s) (n : Nat) : Inv (alloc s n).2 := by
  obtain ⟨hE, hG, hX, hD⟩ := hI
  have harities : ∀ j c, s.classes.get? j = some c →
      ∃ c', (alloc s n).2.classes.get? j = some c' ∧ c'.arity = c.arity ∧
        c'.leader = c.leader := by
    intro j c hc
    exact ⟨c, alloc_get_old hc, rfl, rfl⟩
  refine ⟨?_, ?_, ?_, ?_⟩
  · intro i c l hic hil
    rcases alloc_get_cases hic with h1 | ⟨rfl, rfl⟩
    · obtain ⟨cl, hcl, hlen, hb⟩ := hE _ _ _ h1 hil
      obtain ⟨cl', hcl', har, -⟩ := harities _ _ hcl
      exact ⟨cl', hcl', by rw [hlen, har], hb⟩
    · simp at hil
  · intro i c g hic hig
    rcases alloc_get_cases hic with h1 | ⟨rfl, rfl⟩
    · exact hG _ _ _ h1 hig
    · simp only at hig
      obtain rfl := Option.some.inj hig
      refine ⟨Finset.mem_singleton_self _, ?_, ?_⟩
      · intro p hp
        rw [Group.init] at hp
        obtain rfl := Finset.mem_singleton.mp hp
        exact ⟨List.length_range _, fun e he => List.mem_range.mp he⟩
      · intro p hp q hq
        rw [Group.init] at hp hq
        obtain rfl := Finset.mem_singleton.mp hp
        obtain rfl := Finset.mem_singleton.mp hq
        exact ⟨List.range n, compose_range_self n, Finset.mem_singleton_self _⟩
  · intro i c hic
    rcases alloc_get_cases hic with h1 | ⟨rfl, rfl⟩
    · exact hX _ _ h1
    · simp
  · intro i c hic
    rcases alloc_get_cases hic with h1 | ⟨rfl, rfl⟩
    · obtain ⟨r, k, hR, hk⟩ := hD _ _ h1
      refine ⟨r, k, ?_, ?_⟩
      · refine rootedAt_transfer ?_ hR
        intro j cj hj
        exact ⟨cj, alloc_get_old hj, rfl⟩
      · rw [leaderCount_alloc]
        exact hk
    · refine ⟨s.classes.length, 0, ?_, Nat.zero_le _⟩
      exact RootedAt.root _ _ (alloc_get_new s n) rfl

theorem group_add_inv {s : SlottedUF} (hI : Inv s) {i : Id} {c : Class}
    (hc : s.classes.get? i = some c) (hlc : c.leader = none)
    {g : Group} (hg : c.group = some g) {w : List Slot} {g' : Group}
    (hadd : g.add w = some g') : Inv (s.setClass i {c with group := some g'}) := by
  obtain ⟨hE, hG, hX, hD⟩ := hI
  obtain ⟨hid, hwf, hcl⟩ := hG _ _ _ hc hg
  have hilt : i < s.classes.length := get?_some_lt hc
  have hwlen : w.length = c.arity := add_forces_length hadd hid
  have hwent : ∀ e ∈ w, e < c.arity := add_forces_entries hadd hid
  have hacc : ∀ j cj, (s.setClass i {c with group := some g'}).classes.get? j = some cj →
      (j = i ∧ cj = {c with group := some g'}) ∨ (j ≠ i ∧ s.classes.get? j = some cj) := by
    intro j cj hj
    by_cases hji : j = i
    · subst hji
      rw [setClass_get_self _ hilt] at hj
      exact Or.inl ⟨rfl, (Option.some.inj hj).symm⟩
    · rw [setClass_get_ne hji] at hj
      exact Or.inr ⟨hji, hj⟩
  have harities : ∀ j cj, s.classes.get? j = some cj →
      ∃ cj', (s.setClass i {c with group := some g'}).classes.get? j = some cj' ∧
        cj'.arity = cj.arity ∧ cj'.leader = cj.leader := by
    intro j cj hj
    by_cases hji : j = i
    · subst hji
      rw [hc] at hj
      obtain rfl := Option.some.inj hj
      exact ⟨_, setClass_get_self _ hilt, rfl, rfl⟩
    · exact ⟨cj, by rw [setClass_get_ne hji]; exact hj, rfl, rfl⟩
  refine ⟨?_, ?_, ?_, ?_⟩
  · intro j cj l hj hl
    rcases hacc _ _ hj with ⟨rfl, rfl⟩ | ⟨hji, hj2⟩
    · simp only at hl
      rw [hlc] at hl
      exact Option.noConfusion hl
    · obtain ⟨cl, hcl2, hlen2, hb⟩ := hE _ _ _ hj2 hl
      obtain ⟨cl', hcl', har, -⟩ := harities _ _ hcl2
      exact ⟨cl', hcl', by rw [hlen2, har], hb⟩
  · intro j cj gg hj hgg
    rcases hacc _ _ hj with ⟨rfl, rfl⟩ | ⟨hji, hj2⟩
    · simp only at hgg
      obtain rfl := Option.some.inj hgg
      refine ⟨?_, ?_, add_closed hadd⟩
      · exact add_subset hadd (Finset.mem_insert_of_mem hid)
      · refine add_wf hadd ?_
        intro p hp
        rcases Finset.mem_insert.mp hp with rfl | hp2
        · exact ⟨hwlen, hwent⟩
        · exact hwf p hp2
    · exact hG _ _ _ hj2 hgg
  · intro j cj hj
    rcases hacc _ _ hj with ⟨rfl, rfl⟩ | ⟨hji, hj2⟩
    · simp [hlc]
    · exact hX _ _ hj2
  · intro j cj hj
    have hjlt : j < s.classes.length := by
      have := get?_some_lt hj
      rw [setClass_length] at this
      exact this
    obtain ⟨c0, hc0⟩ := lt_get?_some hjlt
    obtain ⟨r, k, hR, hk⟩ := hD _ _ hc0
    refine ⟨r, k, ?_, ?_⟩
    · refine rootedAt_transfer ?_ hR
      intro j2 cj2 hj2
      obtain ⟨cj', h1, -, h3⟩ := harities _ _ hj2
      exact ⟨cj', h1, h3⟩
    · rw [@leaderCount_setClass_same _ _ _ {c with group := some g'} hc rfl]
      exact hk

theorem mark_inv {s : SlottedUF} (hI : Inv s) {x : AppliedId} {slots : Finset Slot}
    {s' : SlottedUF} (h : mark_slots_redundant s x slots = some s') : Inv s' := by
  rw [mark_slots_redundant] at h
  split at h
  · simp at h
  · rename_i x1 s0 heq1
    have hs0 : s0 = s := find_state heq1
    rw [hs0] at h
    obtain ⟨croot, hcroot, hrootl⟩ := findLoop_root heq1
    split at h
    · simp at h
    · rename_i c hc
      have hceq : c = croot := by
        rw [hcroot] at hc
        exact (Option.some.inj hc).symm
      split at h
      · simp at h
      · rename_i g hg
        split at h
        · simp at h
        · rename_i red hred
          split at h
          · injection h with h
            rw [← h]
            exact hI
          · dsimp only at h
            have hlx1 : c.leader = none := by rw [hceq]; exact hrootl
            have hxlt : x1.id < s.classes.length := get?_some_lt hc
            have hxy : (⟨(alloc s (c.arity - red.card)).1,
                (List.range c.arity).filter fun a => decide (a ∉ red)⟩ : AppliedId).id ≠
                x1.id := by
              exact Nat.ne_of_gt hxlt
            have hres := add_uf_edge_inv (alloc_inv hI _)
              (alloc_get_old hc) hlx1 (alloc_get_new s _) rfl hxy h
            exact hres.1

theorem unionLoop_inv : ∀ {fuel : Nat} {s : SlottedUF} {x y : AppliedId}
    {out : SlottedUF × AppliedId × AppliedId},
    Inv s → unionLoop fuel s x y = some out →
    Inv out.1 ∧
      (∃ c, out.1.classes.get? out.2.1.id = some c ∧ c.leader = none) ∧
      (∃ c, out.1.classes.get? out.2.2.id = some c ∧ c.leader = none) := by
  intro fuel
  induction fuel with
  | zero => intro s x y out hI h; simp [unionLoop] at h
  | succ m ih =>
    intro s x y out hI h
    rw [unionLoop] at h
    split at h
    · simp at h
    · rename_i x1 s1 heq1
      have hs1 : s1 = s := find_state heq1
      rw [hs1] at h
      split at h
      · simp at h
      · rename_i y1 s2 heq2
        have hs2 : s2 = s := find_state heq2
        rw [hs2] at h
        split at h
        · injection h with h
          subst h
          obtain ⟨c1, hc1, hl1⟩ := findLoop_root heq1
          obtain ⟨c2, hc2, hl2⟩ := findLoop_root heq2
          exact ⟨hI, ⟨c1, hc1, hl1⟩, ⟨c2, hc2, hl2⟩⟩
        · split at h
          · simp at h
          · rename_i sm1 hm1
            split at h
            · simp at h
            · rename_i sm2 hm2
              exact ih (mark_inv (mark_inv hI hm1) hm2) h

theorem union_inv {s : SlottedUF} (hI : Inv s) {x y : AppliedId} {s' : SlottedUF}
    (h : union s x y = some s') : Inv s' := by
  rw [union] at h
  split at h
  · simp at h
  · rename_i out s0 x1 y1 heq
    obtain ⟨hI0, ⟨cr1, hcr1, hlr1⟩, ⟨cr2, hcr2, hlr2⟩⟩ := unionLoop_inv hI heq
    dsimp only at hI0 hcr1 hcr2
    split at h
    · simp at h
    · rename_i b s0' heqb
      have hs0 : s0' = s0 := is_equal_state heqb
      rw [hs0] at h
      split at h
      · injection h with h
        rw [← h]
        exact hI0
      · dsimp only at h
        split at h
        · rename_i hsame
          split at h
          · simp at h
          · rename_i c hc
            split at h
            · simp at h
            · rename_i g hg
              split at h
              · simp at h
              · rename_i g' hadd
                injection h with h
                rw [← h]
                have hlcn : c.leader = none := by
                  have hc2 : s0.classes.get? x1.id = some c := hc
                  rw [hcr1] at hc2
                  rw [← Option.some.inj hc2]
                  exact hlr1
                exact group_add_inv hI0 hc hlcn hg hadd
        · rename_i hdiff
          have hne : (reorderPair x1 y1).2.id ≠ (reorderPair x1 y1).1.id :=
            fun hh => hdiff hh.symm
          have hcr1b : s0.classes.get? (reorderPair x1 y1).1.id = some cr1 := hcr1
          have hcr2b : s0.classes.get? (reorderPair x1 y1).2.id = some cr2 := hcr2
          exact (add_uf_edge_inv hI0 hcr1b hlr1 hcr2b hlr2 hne h).1

theorem reachable_inv : ∀ {s : SlottedUF}, Reachable s → Inv s := by
  intro s h
  induction h with
  | base => exact inv_empty
  | step_alloc s0 n hr ih => exact alloc_inv ih n
  | step_union s0 s1 x y hr hu ih => exact union_inv ih hu
  | step_find s0 s1 x r hr hf ih =>
    rw [find_state hf]
    exact ih
  | step_is_equal s0 s1 x y b hr hf ih =>
    rw [is_equal_state hf]
    exact ih

/-! ### Characterisation of `reorder` (first-encounter relabelling) -/

theorem indexOf_append_self {a : Slot} {l : List Slot} (h : a ∉ l) :
    (l ++ [a]).indexOf a = l.length := by
  induction l with
  | nil => simp
  | cons x t ih =>
    have hax : a ≠ x := by rintro rfl; exact h (List.mem_cons_self _ _)
    have hat : a ∉ t := fun hm => h (List.mem_cons_of_mem _ hm)
    simp only [List.cons_append, List.indexOf_cons, List.length_cons]
    simp [cond_eq_if, beq_iff_eq, Ne.symm hax, ih hat]

theorem indexOf_stable {l1 l2 : List Slot} (h : l1 <+: l2) {s : Slot}
    (hs : s ∈ l1) : l2.indexOf s = l1.indexOf s := by
  obtain ⟨t, rfl⟩ := h
  exact List.indexOf_append_of_mem hs

theorem relabel_fst : ∀ l keys : List Slot,
    (relabel keys l).1 =
      l.foldl (fun ks s => if s ∈ ks then ks else ks ++ [s]) keys := by
  intro l
  induction l with
  | nil => intro keys; rfl
  | cons s rest ih =>
    intro keys
    show (relabel (if s ∈ keys then keys else keys ++ [s]) rest).1 = _
    rw [List.foldl_cons]
    exact ih _

theorem relabel_extends : ∀ l keys : List Slot, keys <+: (relabel keys l).1 := by
  intro l
  induction l with
  | nil => intro keys; exact ⟨[], List.append_nil _⟩
  | cons s rest ih =>
    intro keys
    show keys <+: (relabel (if s ∈ keys then keys else keys ++ [s]) rest).1
    refine List.IsPrefix.trans ?_ (ih (if s ∈ keys then keys else keys ++ [s]))
    by_cases hs : s ∈ keys
    · rw [if_pos hs]
    · rw [if_neg hs]; exact ⟨[s], rfl⟩

theorem relabel_mem_keys {l keys : List Slot} {s : Slot}
    (hs : s ∈ keys) : s ∈ (relabel keys l).1 :=
  (relabel_extends l keys).subset hs

theorem relabel_mem : ∀ (l keys : List Slot) {s : Slot},
    s ∈ l → s ∈ (relabel keys l).1 := by
  intro l
  induction l with
  | nil => intro keys s hs; cases hs
  | cons a rest ih =>
    intro keys s hs
    show s ∈ (relabel (if a ∈ keys then keys else keys ++ [a]) rest).1
    rcases List.mem_cons.mp hs with heq | hrest
    · rw [heq]
      refine relabel_mem_keys ?_
      by_cases ha : a ∈ keys
      · rw [if_pos ha]; exact ha
      · rw [if_neg ha]; exact List.mem_append_right _ (List.mem_singleton.mpr rfl)
    · exact ih _ hrest

theorem relabel_nodup : ∀ (l keys : List Slot), keys.Nodup →
    (relabel keys l).1.Nodup := by
  intro l
  induction l with
  | nil => intro keys h; exact h
  | cons a rest ih =>
    intro keys h
    show (relabel (if a ∈ keys then keys else keys ++ [a]) rest).1.Nodup
    apply ih
    by_cases ha : a ∈ keys
    · rw [if_pos ha]; exact h
    · rw [if_neg ha]
      simp [List.nodup_append, h, ha]

theorem relabel_snd : ∀ l keys : List Slot,
    (relabel keys l).2 = l.map fun s => (relabel keys l).1.indexOf s := by
  intro l
  induction l with
  | nil => intro keys; rfl
  | cons a rest ih =>
    intro keys
    show (if a ∈ keys then keys else keys ++ [a]).indexOf a
        :: (relabel (if a ∈ keys then keys else keys ++ [a]) rest).2
      = (a :: rest).map fun s =>
          (relabel (if a ∈ keys then keys else keys ++ [a]) rest).1.indexOf s
    rw [List.map_cons, ih]
    congr 1
    refine (indexOf_stable (relabel_extends rest _) ?_).symm
    by_cases ha : a ∈ keys
    · rw [if_pos ha]; exact ha
    · rw [if_neg ha]; exact List.mem_append_right _ (List.mem_singleton.mpr rfl)

theorem relabel_fresh : ∀ l keys : List Slot, l.Nodup → (∀ s ∈ l, s ∉ keys) →
    (relabel keys l).1 = keys ++ l ∧
    (relabel keys l).2 = List.range' keys.length l.length := by
  intro l
  induction l with
  | nil => intro keys _ _; exact ⟨(List.append_nil _).symm, rfl⟩
  | cons a rest ih =>
    intro keys hnd hfresh
    have ha : a ∉ keys := hfresh a (List.mem_cons_self _ _)
    have hnd2 : rest.Nodup := (List.nodup_cons.mp hnd).2
    have hnotin : a ∉ rest := (List.nodup_cons.mp hnd).1
    have hfresh2 : ∀ s ∈ rest, s ∉ keys ++ [a] := by
      intro s hs hmem
      rcases List.mem_append.mp hmem with h1 | h2
      · exact hfresh s (List.mem_cons_of_mem _ hs) h1
      · rw [List.mem_singleton] at h2; subst h2; exact hnotin hs
    obtain ⟨h1, h2⟩ := ih (keys ++ [a]) hnd2 hfresh2
    have hlen1 : (keys ++ [a]).length = keys.length + 1 := by simp
    constructor
    · show (relabel (if a ∈ keys then keys else keys ++ [a]) rest).1 = keys ++ a :: rest
      rw [if_neg ha, h1, List.append_assoc]
      rfl
    · show (if a ∈ keys then keys else keys ++ [a]).indexOf a
          :: (relabel (if a ∈ keys then keys else keys ++ [a]) rest).2
        = List.range' keys.length (rest.length + 1)
      rw [if_neg ha, indexOf_append_self ha, h2, hlen1]
      rfl

theorem reorderList_fst : ∀ (apps : List AppliedId) (keys : List Slot),
    (reorderList keys apps).1 = (apps.flatMap AppliedId.args).foldl
      (fun ks s => if s ∈ ks then ks else ks ++ [s]) keys := by
  intro apps
  induction apps with
  | nil => intro keys; rfl
  | cons a rest ih =>
    intro keys
    show (reorderList (relabel keys a.args).1 rest).1 = _
    rw [ih, relabel_fst]
    simp [List.flatMap_cons, List.foldl_append]

theorem reorderList_extends : ∀ (apps : List AppliedId) (keys : List Slot),
    keys <+: (reorderList keys apps).1 := by
  intro apps
  induction apps with
  | nil => intro keys; exact ⟨[], List.append_nil _⟩
  | cons a rest ih =>
    intro keys
    show keys <+: (reorderList (relabel keys a.args).1 rest).1
    exact (relabel_extends a.args keys).trans (ih _)

theorem reorderList_mem : ∀ (apps : List AppliedId) (keys : List Slot)
    {x : AppliedId}, x ∈ apps → ∀ {s : Slot}, s ∈ x.args →
    s ∈ (reorderList keys apps).1 := by
  intro apps
  induction apps with
  | nil => intro keys x hx; cases hx
  | cons a rest ih =>
    intro keys x hx s hs
    show s ∈ (reorderList (relabel keys a.args).1 rest).1
    rcases List.mem_cons.mp hx with rfl | hx2
    · exact (reorderList_extends rest _).subset (relabel_mem _ _ hs)
    · exact ih _ hx2 hs

theorem reorderList_nodup : ∀ (apps : List AppliedId) (keys : List Slot),
    keys.Nodup → (reorderList keys apps).1.Nodup := by
  intro apps
  induction apps with
  | nil => intro keys h; exact h
  | cons a rest ih =>
    intro keys h
    show (reorderList (relabel keys a.args).1 rest).1.Nodup
    exact ih _ (relabel_nodup _ _ h)

theorem reorderList_snd : ∀ (apps : List AppliedId) (keys : List Slot),
    (reorderList keys apps).2 = apps.map fun x =>
      ⟨x.id, x.args.map fun s => (reorderList keys apps).1.indexOf s⟩ := by
  intro apps
  induction apps with
  | nil => intro keys; rfl
  | cons a rest ih =>
    intro keys
    show (⟨a.id, (relabel keys a.args).2⟩ : AppliedId)
        :: (reorderList (relabel keys a.args).1 rest).2
      = (a :: rest).map fun x =>
          ⟨x.id, x.args.map fun s =>
            (reorderList (relabel keys a.args).1 rest).1.indexOf s⟩
    rw [List.map_cons, ih]
    congr 2
    rw [relabel_snd]
    apply List.map_congr_left
    intro s hs
    exact (indexOf_stable (reorderList_extends rest _) (relabel_mem _ _ hs)).symm

/-! ### Characterisation of the redundancy computation -/

theorem redundantsOf_aux {g : Group} {args : List Slot} :
    ∀ (l : List Slot) (acc red : Finset Slot),
      foldO (fun red sl =>
        if sl ∈ args then
          match g.orbit (args.indexOf sl) with
          | none => none
          | some ob => some (red ∪ ob)
        else some red) acc l = some red →
      ∀ r : Slot, r ∈ red ↔ r ∈ acc ∨ ∃ s, s ∈ l ∧ s ∈ args ∧
        ∃ ob, g.orbit (args.indexOf s) = some ob ∧ r ∈ ob := by
  intro l
  induction l with
  | nil =>
    intro acc red h r
    simp only [foldO, Option.some.injEq] at h
    subst h
    simp
  | cons a t ih =>
    intro acc red h r
    rw [foldO] at h
    by_cases ha : a ∈ args
    · rw [if_pos ha] at h
      cases horb : g.orbit (args.indexOf a) with
      | none => rw [horb] at h; simp at h
      | some ob =>
        rw [horb] at h
        simp only at h
        have hih := ih (acc ∪ ob) red h r
        rw [hih]
        constructor
        · rintro (hm | ⟨s, hsl, hsa, ob2, hob2, hr⟩)
          · rcases Finset.mem_union.mp hm with hm1 | hm2
            · exact Or.inl hm1
            · exact Or.inr ⟨a, List.mem_cons_self _ _, ha, ob, horb, hm2⟩
          · exact Or.inr ⟨s, List.mem_cons_of_mem _ hsl, hsa, ob2, hob2, hr⟩
        · rintro (hm | ⟨s, hsl, hsa, ob2, hob2, hr⟩)
          · exact Or.inl (Finset.mem_union_left _ hm)
          · rcases List.mem_cons.mp hsl with rfl | hsl2
            · rw [horb] at hob2
              obtain rfl : ob = ob2 := by injection hob2
              exact Or.inl (Finset.mem_union_right _ hr)
            · exact Or.inr ⟨s, hsl2, hsa, ob2, hob2, hr⟩
    · rw [if_neg ha] at h
      simp only at h
      have hih := ih acc red h r
      rw [hih]
      constructor
      · rintro (hm | ⟨s, hsl, hsa, ob2, hob2, hr⟩)
        · exact Or.inl hm
        · exact Or.inr ⟨s, List.mem_cons_of_mem _ hsl, hsa, ob2, hob2, hr⟩
      · rintro (hm | ⟨s, hsl, hsa, ob2, hob2, hr⟩)
        · exact Or.inl hm
        · rcases List.mem_cons.mp hsl with rfl | hsl2
          · exact absurd hsa ha
          · exact Or.inr ⟨s, hsl2, hsa, ob2, hob2, hr⟩

/-! ### The claims -/

/-- C1: the spec promises that after `union(x, y)` on well-formed applied
ids, `is_equal(find(x), find(y))` returns true.  The code violates this:
with `a = alloc(3)`, `b = alloc(2)`, the call
`union(a[5,5,6], b[6,5])` succeeds, yet afterwards
`is_equal(find(a[5,5,6]), find(b[6,5]))` returns `false` — the
reorder-based leader edge loses the equation when the source argument
tuple has repeated slot labels. -/
theorem c1_union_fails_to_equate :
    ((union ufA32 ⟨0, [5, 5, 6]⟩ ⟨1, [6, 5]⟩).bind fun s =>
      (find s ⟨0, [5, 5, 6]⟩).bind fun p =>
      (find s ⟨1, [6, 5]⟩).bind fun q =>
      (is_equal s p.1 q.1).map Prod.fst) = some false := by
  decide

/-- C2: the spec promises reflexivity of `is_equal` for any argument
tuple of the class's arity, including tuples with repeated labels.  The
code violates this: with `c = alloc(2)`,
`is_equal(c[0,0], c[0,0])` returns `false` (reorder maps both tuples to
`[0,0]`, which the freshly initialised group does not contain). -/
theorem c2_is_equal_not_reflexive :
    (ufTwo.classes.get? 0).map Class.arity = some 2 ∧
    (is_equal ufTwo ⟨0, [0, 0]⟩ ⟨0, [0, 0]⟩).map Prod.fst = some false :=
  ⟨by decide, by decide⟩

/-- C3 (counterexample): the claimed arity law — `len(σ) = arity(c)` and
every entry of `σ` below `arity(c')` for a leader edge
`leader(c) = AppliedId(c', σ)` — fails in the reachable state `c3state`,
whose class 0 (arity 3) carries the leader edge `2[1,2]` with
`len([1,2]) = 2 ≠ 3` and the entry `2` not below `arity(2) = 2`. -/
theorem c3_arity_law_counterexample :
    Reachable c3state ∧
    c3state.classes.get? 0 = some ⟨3, none, some ⟨2, [1, 2]⟩⟩ ∧
    (c3state.classes.get? 2).map Class.arity = some 2 ∧
    ¬ (([1, 2] : List Slot).length = 3 ∧ ∀ a ∈ ([1, 2] : List Slot), a < 2) :=
  ⟨Reachable.step_union ufA32 c3state ⟨0, [5, 6, 7]⟩ ⟨1, [7, 6]⟩
      (Reachable.step_alloc ufThree 2
        (Reachable.step_alloc SlottedUF.empty 3 Reachable.base))
      (by decide),
   by decide, by decide, by decide⟩

/-- C3 (amended): in every reachable state, every leader edge
`leader(c) = AppliedId(c', σ)` points to an existing class with
`len(σ) = arity(c')` and every entry of `σ` strictly below `arity(c)`
(the two sides of the spec's law are swapped). -/
theorem c3_leader_edge_arity_law : ∀ s : SlottedUF, Reachable s → EdgesWF s :=
  fun _ hs => (reachable_inv hs).1

/-- Witness for C3: the amended arity law holds in the reachable
state `c3state`. -/
theorem c3_leader_edge_arity_law_witness :
    Reachable c3state ∧ EdgesWF c3state :=
  ⟨Reachable.step_union ufA32 c3state ⟨0, [5, 6, 7]⟩ ⟨1, [7, 6]⟩
      (Reachable.step_alloc ufThree 2
        (Reachable.step_alloc SlottedUF.empty 3 Reachable.base))
      (by decide),
   c3_leader_edge_arity_law c3state
     (Reachable.step_union ufA32 c3state ⟨0, [5, 6, 7]⟩ ⟨1, [7, 6]⟩
       (Reachable.step_alloc ufThree 2
         (Reachable.step_alloc SlottedUF.empty 3 Reachable.base))
       (by decide))⟩

/-- C4: the spec promises that `union` never removes equalities.  The
code violates this: with `a = alloc(2)`, `is_equal(a[0,0], a[0,1])` holds
initially, `union(a[0,0], a[1,0])` succeeds, and afterwards
`is_equal(a[0,0], a[0,1])` returns `false`. -/
theorem c4_union_removes_equality :
    (is_equal ufTwo ⟨0, [0, 0]⟩ ⟨0, [0, 1]⟩).map Prod.fst = some true ∧
    ((union ufTwo ⟨0, [0, 0]⟩ ⟨0, [1, 0]⟩).bind fun s =>
      (is_equal s ⟨0, [0, 0]⟩ ⟨0, [0, 1]⟩).map Prod.fst) = some false :=
  ⟨by decide, by decide⟩

/-- C5 (counterexample): the claim quantifies over every applied id over
an allocated class; in the reachable state `c3state` the applied id
`0[9]` is over the allocated class 0 but `find` raises `IndexError`
(returns `none`) because the argument tuple is shorter than the edge's
entries require. -/
theorem c5_find_crash_counterexample :
    Reachable c3state ∧
    c3state.classes.get? 0 = some ⟨3, none, some ⟨2, [1, 2]⟩⟩ ∧
    find c3state ⟨0, [9]⟩ = none :=
  ⟨Reachable.step_union ufA32 c3state ⟨0, [5, 6, 7]⟩ ⟨1, [7, 6]⟩
      (Reachable.step_alloc ufThree 2
        (Reachable.step_alloc SlottedUF.empty 3 Reachable.base))
      (by decide),
   by decide, by decide⟩

/-- C5 (amended): in every reachable state, for every applied id over an
allocated class whose argument tuple has the class's arity, `find`
terminates without modifying the state and returns an applied id of a
class with no leader (the leader graph is acyclic). -/
theorem c5_find_terminates_canonical :
    ∀ s : SlottedUF, Reachable s → ∀ (x : AppliedId) (c : Class),
      s.classes.get? x.id = some c → x.args.length = c.arity →
      ∃ r : AppliedId, find s x = some (r, s) ∧
        ∃ cr : Class, s.classes.get? r.id = some cr ∧ cr.leader = none := by
  intro s hs x c hc hlen
  obtain ⟨hE, hG, hX, hD⟩ := reachable_inv hs
  obtain ⟨r, hr⟩ := find_succeeds hE hD hc hlen
  exact ⟨r, hr, findLoop_root hr⟩

/-- Witness for C5: `find` on `0[0,1]` in a freshly allocated arity-2
class terminates and returns a leaderless class. -/
theorem c5_find_terminates_canonical_witness :
    Reachable ufTwo ∧
    ufTwo.classes.get? 0 = some ⟨2, some (Group.init 2), none⟩ ∧
    ([0, 1] : List Slot).length = 2 ∧
    (∃ r : AppliedId, find ufTwo ⟨0, [0, 1]⟩ = some (r, ufTwo) ∧
      ∃ cr : Class, ufTwo.classes.get? r.id = some cr ∧ cr.leader = none) :=
  ⟨Reachable.step_alloc SlottedUF.empty 2 Reachable.base, by decide, by decide,
   c5_find_terminates_canonical ufTwo
     (Reachable.step_alloc SlottedUF.empty 2 Reachable.base)
     ⟨0, [0, 1]⟩ ⟨2, some (Group.init 2), none⟩ (by decide) (by decide)⟩

/-- C6 (counterexample): the claim asserts that every tuple stored in a
group is a bijection; in the reachable state `c6state` (produced by
`union(a[0,0], b[0,0])` on two fresh arity-2 classes) the group of class
1 contains the non-injective tuple `[0,0]`. -/
theorem c6_nonbijective_perm_counterexample :
    Reachable c6state ∧
    ((c6state.classes.get? 1).bind Class.group).map
      (fun g => decide (([0, 0] : List Slot) ∈ g.perms)) = some true ∧
    ¬ ([0, 0] : List Slot).Nodup :=
  ⟨Reachable.step_union ufTwo2 c6state ⟨0, [0, 0]⟩ ⟨1, [0, 0]⟩
      (Reachable.step_alloc ufTwo 2
        (Reachable.step_alloc SlottedUF.empty 2 Reachable.base))
      (by decide),
   by decide, by decide⟩

/-- C6 (amended): in every reachable state a class's group is present iff
its leader is absent, and every present group contains the identity
permutation, has all member tuples of the class's arity with entries
below it, and is closed under composition — but member tuples need not
be bijections. -/
theorem c6_group_invariants :
    ∀ s : SlottedUF, Reachable s → XorWF s ∧ GroupsWF s :=
  fun _ hs => ⟨(reachable_inv hs).2.2.1, (reachable_inv hs).2.1⟩

/-- Witness for C6: the group invariants hold in the two-class state. -/
theorem c6_group_invariants_witness :
    Reachable ufTwo2 ∧ (XorWF ufTwo2 ∧ GroupsWF ufTwo2) :=
  ⟨Reachable.step_alloc ufTwo 2
      (Reachable.step_alloc SlottedUF.empty 2 Reachable.base),
   c6_group_invariants ufTwo2
     (Reachable.step_alloc ufTwo 2
       (Reachable.step_alloc SlottedUF.empty 2 Reachable.base))⟩

/-- C7: `reorder` returns the dict whose keys are the occurring slots in
first-encounter order, relabels every argument tuple through that dict,
keeps every id unchanged, gives the first tuple the identity prefix when
its slots are pairwise distinct, and on the spec's S5 example returns
`(id2[0,1,2], id5[3,2,4,0])` with the map `{4:0, 2:1, 1:2, 0:3, 3:4}`. -/
theorem c7_reorder_spec : ∀ apps : List AppliedId,
    (reorder apps).1 = firstEncounterKeys apps ∧
    (reorder apps).1.Nodup ∧
    (∀ x ∈ apps, ∀ s ∈ x.args, s ∈ (reorder apps).1) ∧
    (reorder apps).2 = (apps.map fun x =>
      ⟨x.id, x.args.map fun s => (reorder apps).1.indexOf s⟩) ∧
    (∀ a1 rest, apps = a1 :: rest → a1.args.Nodup →
      (reorder apps).2.head? = some ⟨a1.id, List.range a1.args.length⟩) ∧
    reorder [⟨2, [4, 2, 1]⟩, ⟨5, [0, 1, 3, 4]⟩] =
      ([4, 2, 1, 0, 3], [⟨2, [0, 1, 2]⟩, ⟨5, [3, 2, 4, 0]⟩]) := by
  intro apps
  refine ⟨reorderList_fst apps [], reorderList_nodup apps [] List.nodup_nil,
    fun x hx s hs => reorderList_mem apps [] hx hs,
    reorderList_snd apps [], ?_, by decide⟩
  rintro a1 rest rfl hnd
  show ((⟨a1.id, (relabel [] a1.args).2⟩ : AppliedId)
      :: (reorderList (relabel [] a1.args).1 rest).2).head? = _
  obtain ⟨-, h2⟩ := relabel_fresh a1.args [] hnd (by intro s hs hmem; cases hmem)
  rw [List.head?_cons, h2, List.range_eq_range']
  rfl

/-- Witness for C7: on the S5 input, whose first tuple `[4,2,1]` has
pairwise distinct slots, the first relabelled tuple is the identity
prefix `[0,1,2]`. -/
theorem c7_reorder_spec_witness :
    ([4, 2, 1] : List Slot).Nodup ∧
    (reorder [⟨2, [4, 2, 1]⟩, ⟨5, [0, 1, 3, 4]⟩]).2.head? =
      some ⟨2, List.range 3⟩ :=
  ⟨by decide,
   (c7_reorder_spec [⟨2, [4, 2, 1]⟩, ⟨5, [0, 1, 3, 4]⟩]).2.2.2.2.1
     ⟨2, [4, 2, 1]⟩ [⟨5, [0, 1, 3, 4]⟩] rfl (by decide)⟩

/-- C8: the redundant-slot computation of `mark_slots_redundant` returns
exactly the union of the orbits (under the class's group) of the
positions of the marked slots, and on the spec's S6 scenario — `a =
alloc(3)`, `union(a[0,1,2], a[1,0,2])`, then marking slot 0 redundant —
the canonical class of `a` ends with arity 1 (the orbit `{0,1}` of
position 0 under the swap symmetry is all redundant). -/
theorem c8_orbit_expansion :
    (∀ (g : Group) (args : List Slot) (slots red : Finset Slot),
      redundantsOf g args slots = some red →
      ∀ r : Slot, r ∈ red ↔ ∃ s, s ∈ slots ∧ s ∈ args ∧
        ∃ ob, g.orbit (args.indexOf s) = some ob ∧ r ∈ ob) ∧
    ((union ufThree ⟨0, [0, 1, 2]⟩ ⟨0, [1, 0, 2]⟩).bind fun s =>
      (mark_slots_redundant s ⟨0, [0, 1, 2]⟩ {0}).bind fun s2 =>
      (find s2 ⟨0, [0, 1, 2]⟩).bind fun p =>
      (s2.classes.get? p.1.id).map Class.arity) = some 1 := by
  constructor
  · intro g args slots red h r
    rw [redundantsOf] at h
    rw [redundantsOf_aux (finsetSortedList slots) ∅ red h r]
    simp only [Finset.not_mem_empty, false_or]
    constructor
    · rintro ⟨s, hs, rest⟩; exact ⟨s, mem_finsetSortedList.mp hs, rest⟩
    · rintro ⟨s, hs, rest⟩; exact ⟨s, mem_finsetSortedList.mpr hs, rest⟩
  · decide

/-- Witness for C8: the redundancy computation on the S6 group
`{[0,1,2],[1,0,2]}` with slot 0 marked returns the orbit `{0,1}`, and
membership of 0 in it is as characterised. -/
theorem c8_orbit_expansion_witness :
    redundantsOf ⟨{[0, 1, 2], [1, 0, 2]}⟩ [0, 1, 2] {0} = some {0, 1} ∧
    ((0 : Slot) ∈ ({0, 1} : Finset Slot) ↔ ∃ s, s ∈ ({0} : Finset Slot) ∧
      s ∈ ([0, 1, 2] : List Slot) ∧
      ∃ ob, Group.orbit ⟨{[0, 1, 2], [1, 0, 2]}⟩
        (([0, 1, 2] : List Slot).indexOf s) = some ob ∧ (0 : Slot) ∈ ob) :=
  ⟨by decide,
   c8_orbit_expansion.1 ⟨{[0, 1, 2], [1, 0, 2]}⟩ [0, 1, 2] {0} {0, 1}
     (by decide) 0⟩

/-- C9: `Group.add` with a tuple whose length differs from the group's
arity (witnessed by the identity permutation stored in the group) always
fails fatally — the closure loop raises before any group is returned. -/
theorem c9_add_length_mismatch_fatal :
    ∀ (g : Group) (n : Nat) (x : List Slot),
      List.range n ∈ g.perms → x.length ≠ n → g.add x = none :=
  fun _ _ _ hid hx => add_none_of_length hid hx

/-- Witness for C9: adding the length-1 tuple `[0]` to the arity-2
identity group fails. -/
theorem c9_add_length_mismatch_fatal_witness :
    List.range 2 ∈ (Group.init 2).perms ∧ ([0] : List Slot).length ≠ 2 ∧
    (Group.init 2).add [0] = none :=
  ⟨by decide, by decide,
   c9_add_length_mismatch_fatal (Group.init 2) 2 [0] (by decide) (by decide)⟩

/-- C10: `find` and `is_equal` never modify the union-find state — any
successful call returns the state it was given (in particular `find`
performs no path compression, and every class's leader, group and arity
are unchanged). -/
theorem c10_find_is_equal_pure :
    (∀ (s s' : SlottedUF) (x r : AppliedId),
      find s x = some (r, s') → s' = s) ∧
    (∀ (s s' : SlottedUF) (x y : AppliedId) (b : Bool),
      is_equal s x y = some (b, s') → s' = s) :=
  ⟨fun _ _ _ _ h => find_state h, fun _ _ _ _ _ h => is_equal_state h⟩

/-- Witness for C10: a concrete `find` call returns the given state. -/
theorem c10_find_is_equal_pure_witness :
    find ufTwo ⟨0, [0, 1]⟩ = some (⟨0, [0, 1]⟩, ufTwo) ∧ ufTwo = ufTwo :=
  ⟨by decide,
   c10_find_is_equal_pure.1 ufTwo ufTwo ⟨0, [0, 1]⟩ ⟨0, [0, 1]⟩ (by decide)⟩

end Slotted
